import Mathlib

/-!
Verification of `unitysync.py` (andoco/unitysync).

This file gives a shallow embedding of the synchronization engine of
`src/unitysync.py` and proves (or refutes) the frozen claims about it.

Modelling conventions:

* A filesystem tree is an `FSNode`: either a regular file, carrying its byte
  content (`List Nat`) and its modification time (`Nat`), or a directory,
  carrying an association list of entry name to child node.  `shutil.copy2`
  preserves content and mtime, so a file node is exactly the state that the
  engine's shallow comparison (`filecmp`, via size = content length, mtime,
  and content) can observe.
* Python paths are modelled as lists of path components; they only feed the
  `print` announcements, which are recorded in an action log (`Action`).
* Fallible filesystem operations return `Except Err`; an exception in the
  Python code aborts the run, which the model mirrors by propagating the
  error.
* Recursive directory walks take an explicit fuel argument (the Python
  recursion is bounded by the directory depth); exhausting fuel yields the
  distinguished error `Err.outOfFuel`, so an `.ok` result always certifies
  that the walk completed exactly as the source does.
* The file named `.meta` in the process working directory plays a role in
  `copy_asset` because line 43 of the source reads
  `src_metafile = src = '.meta'` (an assignment chain, not an append): the
  name `src_metafile` is bound to the literal relative path `'.meta'`,
  which the subsequent `os.path.isfile`/`shutil.copy2` resolve in the
  current working directory.  The model therefore carries
  `cwdMeta : Option (List Nat × Nat)`, the content and mtime of that file
  when it exists as a regular file.
-/

namespace USync

/-- Errors raised by the modelled Python code.  `nameError` models the
`NameError` raised on line 175 (`dependfile` is referenced but never bound in
`compare_projects`); the others model the corresponding `OSError` subclasses
raised by `shutil`/`os` operations.  `outOfFuel` is a model artifact of the
explicit fuel for recursive walks: it never corresponds to a source
behaviour, and results proved to be `.ok` are unaffected by it. -/
inductive Err where
  | fileNotFound
  | fileExists
  | isADirectory
  | notADirectory
  | nameError
  | outOfFuel
deriving Repr, DecidableEq

/-- A filesystem tree: a regular file with byte content and mtime, or a
directory with named children.  Symbolic links and other special file types
do not occur in the scenarios the spec describes and are not modelled. -/
inductive FSNode where
  | file (content : List Nat) (mtime : Nat)
  | dir (entries : List (String × FSNode))

/-- Look up a name in a directory-entry association list (first match). -/
def lookupE {α : Type} : List (String × α) → String → Option α
  | [], _ => none
  | (m, v) :: es, n => if m = n then some v else lookupE es n

/-- Overwrite the entry for `n` (first occurrence), or append it if absent.
This is what creating/overwriting the filesystem object at `dir/n` does. -/
def setEntry {α : Type} : List (String × α) → String → α → List (String × α)
  | [], n, v => [(n, v)]
  | (m, w) :: es, n, v => if m = n then (n, v) :: es else (m, w) :: setEntry es n v

/-- Remove every entry named `n`; this is what `shutil.rmtree`/`os.remove`
on `dir/n` does. -/
def removeEntry {α : Type} : List (String × α) → String → List (String × α)
  | [], _ => []
  | (m, w) :: es, n => if m = n then removeEntry es n else (m, w) :: removeEntry es n

/-- The entry names of a directory listing, in listing order. -/
def keysOf {α : Type} (es : List (String × α)) : List String := es.map Prod.fst

/-- Well-formedness of a tree as an image of a real directory tree: entry
names are distinct at every level (a real directory cannot contain two
entries with the same name). -/
def wfF : FSNode → Bool
  | .file _ _ => true
  | .dir [] => true
  | .dir ((n, v) :: es) => wfF v && !((es.map Prod.fst).contains n) && wfF (.dir es)

/-- Height of a tree: files are 0, a directory is 1 more than its tallest
child (an empty directory has height 1).  Used only to discharge the fuel
of the recursive walks. -/
def heightF : FSNode → Nat
  | .file _ _ => 0
  | .dir [] => 1
  | .dir ((_, v) :: es) => max (heightF v + 1) (heightF (.dir es))

/-- Byte-wise decidable order on strings (`Char.toNat` lexicographic); it
reduces in the kernel, unlike `String.decidableLE`, and agrees with the
ordering `list.sort()` uses for the ASCII names in all scenarios here. -/
def lexLeB : List Char → List Char → Bool
  | [], _ => true
  | _ :: _, [] => false
  | a :: as, b :: bs =>
    if a.toNat < b.toNat then true
    else if a.toNat = b.toNat then lexLeB as bs
    else false

/-- String comparison used to model `list.sort()` on directory listings. -/
def strLeB (a b : String) : Bool := lexLeB a.data b.data

/-- Insert into a sorted list of names. -/
def insertSorted (n : String) : List String → List String
  | [] => [n]
  | m :: ms => if strLeB n m then n :: m :: ms else m :: insertSorted n ms

/-- Sort a list of names; models `self.left_list.sort()` in
`filecmp.dircmp.phase0`. -/
def sortNames : List String → List String
  | [] => []
  | n :: ns => insertSorted n (sortNames ns)

/-- `filecmp.DEFAULT_IGNORES`: names `dircmp` silently excludes from both
listings (its `ignore` default).  The `hide` default (`.` and `..`) has no
counterpart here because directory entries never contain them. -/
def DEFAULT_IGNORES : List String :=
  ["RCS", "CVS", "tags", ".git", ".hg", ".bzr", "_darcs", "__pycache__"]

/-- The filtered, sorted listing of a directory: models
`dircmp.left_list`/`right_list` (`_filter(os.listdir(...), hide+ignore)`
followed by `sort()`). -/
def listNames (es : List (String × FSNode)) : List String :=
  sortNames ((keysOf es).filter (fun n => !(DEFAULT_IGNORES.contains n)))

/-- Is the object at this lookup result a directory (`os.path.isdir`)?  A
missing object (`none`) is not a directory. -/
def isDirO : Option FSNode → Bool
  | some (.dir _) => true
  | _ => false

/-- Is the object a regular file (`stat.S_ISREG`)? -/
def isFileO : Option FSNode → Bool
  | some (.file _ _) => true
  | _ => false

/-- Shallow file equality, as `filecmp.cmpfiles` (with `shallow=True`)
decides it for two regular files: equal stat signatures (size and mtime)
count as equal without reading the files; otherwise the sizes must agree
and the contents are compared byte by byte. -/
def filesSameB (c1 : List Nat) (t1 : Nat) (c2 : List Nat) (t2 : Nat) : Bool :=
  (c1.length == c2.length && t1 == t2) || c1 == c2

/-- Does the pair of objects at a common name land in `diff_files`?  Only a
pair of regular files can; a type mismatch lands in `common_funny` and a
stat failure in `funny_files`, neither of which `visit_dcmp` reads. -/
def fileDiff : Option FSNode → Option FSNode → Bool
  | some (.file c1 t1), some (.file c2 t2) => !(filesSameB c1 t1 c2 t2)
  | _, _ => false

/-- One entry of the action log: the `print` announcements of the source,
with paths kept structured.  `copyAnnounce src dest` is the
`Copying asset: From .. To ..` message of `copy_asset` (line 33),
`removeAnnounce` the `Removing asset` message (line 48), `printL`/`printR`/
`printD` the `L:`/`R:`/`D:` lines of `DiffComparer`, and `printWith` the
`With project ..` line of `compare_projects` (line 181). -/
inductive Action where
  | copyAnnounce (src dest : List String)
  | removeAnnounce (p : List String)
  | printL (p : List String)
  | printR (p : List String)
  | printD (p : List String)
  | printWith (p : String)
deriving Repr, DecidableEq

/-- Is this log entry a pure report line (as opposed to the announcement of
a copy or removal)? -/
def Action.isPrint : Action → Bool
  | .printL _ | .printR _ | .printD _ | .printWith _ => true
  | .copyAnnounce _ _ | .removeAnnounce _ => false

/-- Models line 43-45 of `copy_asset`:
`src_metafile = src = '.meta'` binds `src_metafile` to the literal relative
path `'.meta'` (the chained assignment is the source as written; the clear
intent `src + '.meta'` is NOT what the code does), so
`os.path.isfile(src_metafile)` tests for a regular file named `.meta` in
the process working directory (`meta` is its content and mtime, `none` when
no such regular file exists), and on success `shutil.copy2` writes that
file to `dest + '.meta'`.  `copy2` onto an existing directory copies into
it under the source basename (`'.meta'`); inside that corner, a further
existing directory named `'.meta'` would make `copy2` raise. -/
def metaSlip (meta : Option (List Nat × Nat)) (destDir : List (String × FSNode))
    (n : String) : Except Err (List (String × FSNode)) :=
  match meta with
  | none => .ok destDir
  | some (c, t) =>
    match lookupE destDir (n ++ ".meta") with
    | some (.dir des) =>
      match lookupE des ".meta" with
      | some (.dir _) => .error .isADirectory
      | _ => .ok (setEntry destDir (n ++ ".meta") (.dir (setEntry des ".meta" (.file c t))))
    | _ => .ok (setEntry destDir (n ++ ".meta") (.file c t))

/-- Models `AssetComparer.copy_asset(src, dest)` (lines 32-45).  The copied
object is the entry `n` of `srcDir`; the destination is the entry `n` of
`destDir` (every call site passes the same final path component on both
sides).  `sp`/`dp` are the full source/destination paths, used only for the
announcement.  Behaviour: announce; in preview mode stop; otherwise
`shutil.copytree` for a directory source (raising `FileExistsError` when
the destination exists), `shutil.copy2` for a file source (overwriting a
file destination, copying into a directory destination under the source
basename, raising `FileNotFoundError` when the source is missing); finally
the line-43 sidecar slip `metaSlip`. -/
def copy_asset (preview : Bool) (meta : Option (List Nat × Nat))
    (sp dp : List String) (srcDir destDir : List (String × FSNode)) (n : String) :
    Except Err (List (String × FSNode) × List Action) :=
  let log : List Action := [.copyAnnounce sp dp]
  if preview then .ok (destDir, log)
  else
    match lookupE srcDir n with
    | some (.dir es) =>
      match lookupE destDir n with
      | some _ => .error .fileExists
      | none =>
        match metaSlip meta (setEntry destDir n (.dir es)) n with
        | .ok d => .ok (d, log)
        | .error e => .error e
    | some (.file c t) =>
      match lookupE destDir n with
      | some (.dir des) =>
        match metaSlip meta (setEntry destDir n (.dir (setEntry des n (.file c t)))) n with
        | .ok d => .ok (d, log)
        | .error e => .error e
      | _ =>
        match metaSlip meta (setEntry destDir n (.file c t)) n with
        | .ok d => .ok (d, log)
        | .error e => .error e
    | none => .error .fileNotFound

/-- Models `AssetComparer.remove_asset(path)` (lines 47-56): announce; in
preview mode stop; otherwise `shutil.rmtree` for a directory and
`os.remove` for a file (raising `FileNotFoundError` when the path is
missing). -/
def remove_asset (preview : Bool) (p : List String)
    (d : List (String × FSNode)) (n : String) :
    Except Err (List (String × FSNode) × List Action) :=
  let log : List Action := [.removeAnnounce p]
  if preview then .ok (d, log)
  else
    match lookupE d n with
    | some _ => .ok (removeEntry d n, log)
    | none => .error .fileNotFound

/-- A reconciliation policy, mirroring the `AssetComparer` interface:
`validate` receives the two asset root listings (the two `Assets`
directories) and the asset name, and returns the continue flag together
with the possibly bootstrapped listings; the three handlers receive the
current left/right paths, the current left/right directory listings, and
the entry name, and return the updated listings.  All also return the
announcements they printed. -/
structure Comparer where
  validate : List String → List String → List (String × FSNode) → List (String × FSNode) →
    String → Except Err (Bool × List (String × FSNode) × List (String × FSNode) × List Action)
  left_only : List String → List String → List (String × FSNode) → List (String × FSNode) →
    String → Except Err (List (String × FSNode) × List (String × FSNode) × List Action)
  right_only : List String → List String → List (String × FSNode) → List (String × FSNode) →
    String → Except Err (List (String × FSNode) × List (String × FSNode) × List Action)
  diff : List String → List String → List (String × FSNode) → List (String × FSNode) →
    String → Except Err (List (String × FSNode) × List (String × FSNode) × List Action)

/-- Models `DiffComparer` (lines 58-80): `validate` prints `L:`/`R:` and
skips when a side is not a directory; the handlers print the classified
path (the `diff` handler printing the right-hand path, line 80) and touch
nothing. -/
def diffComparer : Comparer where
  validate := fun op lp oa la n =>
    if !(isDirO (lookupE la n)) then .ok (false, oa, la, [.printL op])
    else if !(isDirO (lookupE oa n)) then .ok (false, oa, la, [.printR lp])
    else .ok (true, oa, la, [])
  left_only := fun lp _rp le re n => .ok (le, re, [.printL (lp ++ [n])])
  right_only := fun _lp rp le re n => .ok (le, re, [.printR (rp ++ [n])])
  diff := fun _lp rp le re n => .ok (le, re, [.printD (rp ++ [n])])

/-- Models `PullComparer` (lines 82-105): `validate` bootstraps by copying
origin to local when the local side is not a directory, then skips; skips
when the origin side is not a directory; `left_only` and `diff` copy the
origin entry to the local side; `right_only` removes the local entry when
`clean` is set and does nothing otherwise. -/
def pullComparer (clean preview : Bool) (meta : Option (List Nat × Nat)) : Comparer where
  validate := fun op lp oa la n =>
    if !(isDirO (lookupE la n)) then
      match copy_asset preview meta op lp oa la n with
      | .ok (la2, g) => .ok (false, oa, la2, g)
      | .error e => .error e
    else if !(isDirO (lookupE oa n)) then .ok (false, oa, la, [])
    else .ok (true, oa, la, [])
  left_only := fun lp rp le re n =>
    match copy_asset preview meta (lp ++ [n]) (rp ++ [n]) le re n with
    | .ok (re2, g) => .ok (le, re2, g)
    | .error e => .error e
  right_only := fun _lp rp le re n =>
    if clean then
      match remove_asset preview (rp ++ [n]) re n with
      | .ok (re2, g) => .ok (le, re2, g)
      | .error e => .error e
    else .ok (le, re, [])
  diff := fun lp rp le re n =>
    match copy_asset preview meta (lp ++ [n]) (rp ++ [n]) le re n with
    | .ok (re2, g) => .ok (le, re2, g)
    | .error e => .error e

/-- Models `PushComparer` (lines 107-130): `validate` skips when the local
side is not a directory, bootstraps by copying local to origin when the
origin side is not a directory, then skips; `right_only` and `diff` copy
the local entry to the origin side; `left_only` removes the origin entry
when `clean` is set and does nothing otherwise. -/
def pushComparer (clean preview : Bool) (meta : Option (List Nat × Nat)) : Comparer where
  validate := fun op lp oa la n =>
    if !(isDirO (lookupE la n)) then .ok (false, oa, la, [])
    else if !(isDirO (lookupE oa n)) then
      match copy_asset preview meta lp op la oa n with
      | .ok (oa2, g) => .ok (false, oa2, la, g)
      | .error e => .error e
    else .ok (true, oa, la, [])
  left_only := fun lp _rp le re n =>
    if clean then
      match remove_asset preview (lp ++ [n]) le n with
      | .ok (le2, g) => .ok (le2, re, g)
      | .error e => .error e
    else .ok (le, re, [])
  right_only := fun lp rp le re n =>
    match copy_asset preview meta (rp ++ [n]) (lp ++ [n]) re le n with
    | .ok (le2, g) => .ok (le2, re, g)
    | .error e => .error e
  diff := fun lp rp le re n =>
    match copy_asset preview meta (rp ++ [n]) (lp ++ [n]) re le n with
    | .ok (le2, g) => .ok (le2, re, g)
    | .error e => .error e

/-- One handler loop of `visit_dcmp` (`for name in dcmp.left_only: ...`
etc.): run the handler over the listed names in order, threading the two
directory listings and accumulating the log. -/
def runHandler
    (h : List (String × FSNode) → List (String × FSNode) → String →
      Except Err (List (String × FSNode) × List (String × FSNode) × List Action)) :
    List String → List (String × FSNode) → List (String × FSNode) → List Action →
    Except Err (List (String × FSNode) × List (String × FSNode) × List Action)
  | [], le, re, log => .ok (le, re, log)
  | n :: ns, le, re, log =>
    match h le re n with
    | .ok (le2, re2, g) => runHandler h ns le2 re2 (log ++ g)
    | .error e => .error e

/-- The subdirectory loop of `visit_dcmp`
(`for name, subdcmp in dcmp.subdirs.items(): visit_dcmp(subdcmp, ...)`):
`f` is the recursive visit at the remaining fuel.  Each common
subdirectory pair is read from the CURRENT listings — `dircmp` builds the
sub-comparison objects from paths only and lists them lazily when visited,
after the handlers of the enclosing level have run.  A name whose current
object is missing would make `os.listdir` raise when the sub-comparison is
evaluated. -/
def visitSubdirs
    (f : List String → List String → FSNode → FSNode →
      Except Err (FSNode × FSNode × List Action))
    (lp rp : List String) :
    List String → List (String × FSNode) → List (String × FSNode) → List Action →
    Except Err (FSNode × FSNode × List Action)
  | [], le, re, log => .ok (.dir le, .dir re, log)
  | n :: ns, le, re, log =>
    match lookupE le n, lookupE re n with
    | some lc, some rc =>
      match f (lp ++ [n]) (rp ++ [n]) lc rc with
      | .ok (lc2, rc2, g) =>
        visitSubdirs f lp rp ns (setEntry le n lc2) (setEntry re n rc2) (log ++ g)
      | .error e => .error e
    | _, _ => .error .fileNotFound

/-- Models `visit_dcmp(dcmp, comparer)` (lines 132-145) together with the
lazy attribute evaluation of `filecmp.dircmp` that it triggers:

* `left_only`, `right_only` and the `common` classification are computed
  from the directory state at entry to the level (the first attribute
  access runs `phase0`/`phase1` and caches the listings);
* `common_dirs`/`common_files` (`phase2`) depend only on the TYPES of the
  common entries, which no handler of any policy changes, so they are also
  computed from the entry state;
* `diff_files` (`phase3`) stats and compares the common files when the
  third loop starts, i.e. AFTER the `left_only` and `right_only` handlers
  have run, so it is computed from the state after the first two loops;
* the sub-comparisons are evaluated lazily when visited (`visitSubdirs`).

A name of mismatched type (file on one side, directory on the other) falls
into `common_funny`, which `visit_dcmp` does not iterate, so no handler
sees it.  Visiting a non-directory models `os.listdir` raising. -/
def visit_dcmp (cmp : Comparer) :
    Nat → List String → List String → FSNode → FSNode →
    Except Err (FSNode × FSNode × List Action)
  | 0, _, _, _, _ => .error .outOfFuel
  | fuel+1, lp, rp, .dir le, .dir re =>
    let ln := listNames le
    let rn := listNames re
    let lo := ln.filter (fun n => !(rn.contains n))
    let ro := rn.filter (fun n => !(ln.contains n))
    let common := ln.filter (fun n => rn.contains n)
    let cdirs := common.filter (fun n => isDirO (lookupE le n) && isDirO (lookupE re n))
    let cfiles := common.filter (fun n => isFileO (lookupE le n) && isFileO (lookupE re n))
    match runHandler (cmp.left_only lp rp) lo le re [] with
    | .error e => .error e
    | .ok (le1, re1, g1) =>
      match runHandler (cmp.right_only lp rp) ro le1 re1 g1 with
      | .error e => .error e
      | .ok (le2, re2, g2) =>
        let diffs := cfiles.filter (fun n => fileDiff (lookupE le2 n) (lookupE re2 n))
        match runHandler (cmp.diff lp rp) diffs le2 re2 g2 with
        | .error e => .error e
        | .ok (le3, re3, g3) => visitSubdirs (visit_dcmp cmp fuel) lp rp cdirs le3 re3 g3
  | _+1, _, _, _, _ => .error .notADirectory

/-- The `filecmp.dircmp` comparison data, as far as `visit_dcmp` and the
spec's data model read it: the classified name lists and the recursive
sub-comparisons.  (`same_files` and `funny_files` are computed by the
library but never read by this program.) -/
inductive DirCmp where
  | mk (left_only right_only diff_files common_funny : List String)
      (subdirs : List (String × DirCmp))

/-- The `left_only` component. -/
def DirCmp.left_only : DirCmp → List String
  | .mk lo _ _ _ _ => lo

/-- The `right_only` component. -/
def DirCmp.right_only : DirCmp → List String
  | .mk _ ro _ _ _ => ro

/-- The `diff_files` component. -/
def DirCmp.diff_files : DirCmp → List String
  | .mk _ _ df _ _ => df

/-- The `common_funny` component. -/
def DirCmp.common_funny : DirCmp → List String
  | .mk _ _ _ fn _ => fn

/-- The `subdirs` component. -/
def DirCmp.subdirs : DirCmp → List (String × DirCmp)
  | .mk _ _ _ _ sub => sub

/-- Recursive sub-comparisons for `dcmpOf` over the common directories. -/
def dcmpSubs (f : FSNode → FSNode → Option DirCmp)
    (le re : List (String × FSNode)) :
    List String → Option (List (String × DirCmp))
  | [] => some []
  | n :: ns =>
    match lookupE le n, lookupE re n with
    | some lc, some rc =>
      match f lc rc, dcmpSubs f le re ns with
      | some d, some ds => some ((n, d) :: ds)
      | _, _ => none
    | _, _ => none

/-- Models the full (recursively evaluated) `filecmp.dircmp(left, right)`
structure over two quiescent trees (no interleaved mutation): filtered
sorted listings (`phase0`), the `left_only`/`right_only`/`common` split
(`phase1`), the type classification of common names into directories,
files, and `common_funny` (`phase2`), shallow file comparison of the
common files (`phase3`, `cmpfiles` with `shallow=True`), and the recursive
sub-comparisons over the common directories (`phase4`).  `none` when the
fuel is exhausted or a compared object is not a directory. -/
def dcmpOf : Nat → FSNode → FSNode → Option DirCmp
  | 0, _, _ => none
  | fuel+1, .dir le, .dir re =>
    let ln := listNames le
    let rn := listNames re
    let lo := ln.filter (fun n => !(rn.contains n))
    let ro := rn.filter (fun n => !(ln.contains n))
    let common := ln.filter (fun n => rn.contains n)
    let cdirs := common.filter (fun n => isDirO (lookupE le n) && isDirO (lookupE re n))
    let cfiles := common.filter (fun n => isFileO (lookupE le n) && isFileO (lookupE re n))
    let funny := common.filter
      (fun n => !((isDirO (lookupE le n) && isDirO (lookupE re n)) ||
                  (isFileO (lookupE le n) && isFileO (lookupE re n))))
    let diffs := cfiles.filter (fun n => fileDiff (lookupE le n) (lookupE re n))
    match dcmpSubs (dcmpOf fuel) le re cdirs with
    | some sub => some (.mk lo ro diffs funny sub)
    | none => none
  | _+1, _, _ => none

/-- One project entry of the dependency manifest: the origin project root
path and the asset subfolder names declared for it (`proj['path']`,
`proj['assets']`). -/
structure Proj where
  path : String
  assets : List String

/-- The parsed dependency manifest: its `projects` sequence. -/
structure Conf where
  projects : List Proj

/-- The state the command layer touches.  `chain` lists, for the current
working directory and each of its ancestors up to the filesystem root (in
that order), the file names present there — all `local_root` inspects.
`conf` is the parsed content of the manifest, relevant only when
`local_root` finds one (JSON parsing is glue outside the engine and is not
modelled).  `origins` maps an origin project path to the listing of its
`Assets` directory (a missing project behaves as an empty `Assets`
listing: every asset lookup under it fails `os.path.isdir`); `localA` is
the listing of the local project's `Assets` directory.  `cwdMeta` is the
content and mtime of a regular file named `.meta` in the working
directory, if any (see `metaSlip`). -/
structure World where
  chain : List (List String)
  conf : Conf
  origins : List (String × List (String × FSNode))
  localA : List (String × FSNode)
  cwdMeta : Option (List Nat × Nat)

/-- Models `local_root(dependfile)` (lines 147-160): walk from the current
directory upward and return (the index of) the first directory containing
a file named `dependfile`; `none` when even the root lacks one. -/
def local_root (df : String) : List (List String) → Option Nat
  | [] => none
  | d :: ds => if df ∈ d then some 0 else (local_root df ds).map (· + 1)

/-- Models `load_conf(dependfile)` (lines 162-170): `None` when no manifest
directory is found, otherwise the parsed manifest content. -/
def load_conf (df : String) (w : World) : Option Conf :=
  match local_root df w.chain with
  | none => none
  | some _ => some w.conf

/-- The `Assets` listing of an origin project (missing project paths give
an empty listing, under which every `os.path.isdir` test fails). -/
def originEntries (w : World) (p : String) : List (String × FSNode) :=
  (lookupE w.origins p).getD []

/-- The inner loop of `compare_projects` (lines 184-192) over one
project's declared assets: build the asset pair paths, run the policy's
`validate`, skip the pair when it returns false, otherwise run
`dircmp`+`visit_dcmp` on the pair and write the resulting trees back.  An
exception aborts the whole run, preserving the mutations made so far. -/
def runAssets (cmp : Comparer) (fuel : Nat) (ppath : String) :
    List String → World → List Action → World × List Action × Except Err Unit
  | [], w, log => (w, log, .ok ())
  | a :: as, w, log =>
    let oa := originEntries w ppath
    let la := w.localA
    let op := [ppath, "Assets", a]
    let lpath := ["Assets", a]
    match cmp.validate op lpath oa la a with
    | .error e => (w, log, .error e)
    | .ok (b, oa1, la1, g) =>
      let w1 : World := { w with origins := setEntry w.origins ppath oa1, localA := la1 }
      if b then
        match lookupE oa1 a, lookupE la1 a with
        | some lN, some rN =>
          match visit_dcmp cmp fuel op lpath lN rN with
          | .error e => (w1, log ++ g, .error e)
          | .ok (lN2, rN2, g2) =>
            let w2 : World := { w1 with
              origins := setEntry w1.origins ppath (setEntry oa1 a lN2),
              localA := setEntry la1 a rN2 }
            runAssets cmp fuel ppath as w2 (log ++ g ++ g2)
        | _, _ => (w1, log ++ g, .error .fileNotFound)
      else runAssets cmp fuel ppath as w1 (log ++ g)

/-- The outer loop of `compare_projects` (lines 180-192) over the declared
projects. -/
def runProjects (cmp : Comparer) (fuel : Nat) :
    List Proj → World → List Action → World × List Action × Except Err Unit
  | [], w, log => (w, log, .ok ())
  | p :: ps, w, log =>
    match runAssets cmp fuel p.path p.assets w (log ++ [.printWith p.path]) with
    | (w1, log1, .ok ()) => runProjects cmp fuel ps w1 log1
    | other => other

/-- Models `compare_projects(args, comparer)` (lines 172-192).  When no
manifest is found, line 175 evaluates
`'No depend file named "{0}" ...'.format(dependfile)` — but `dependfile`
is an undefined name (the argument lives in `args.dependfile`), so a
`NameError` is raised BEFORE anything is printed or touched; the model
returns the untouched world, an empty log, and `Err.nameError`.  Otherwise
the project/asset loops run. -/
def compare_projects (cmp : Comparer) (fuel : Nat) (df : String) (w : World) :
    World × List Action × Except Err Unit :=
  match load_conf df w with
  | none => (w, [], .error .nameError)
  | some conf => runProjects cmp fuel conf.projects w []

/-- Models `diff_cmd` (lines 194-197): run with a `DiffComparer`.  (The
`Comparing changes` banner, like the other banners, is a fixed string
print with no path content and is not logged.) -/
def diff_cmd (fuel : Nat) (df : String) (w : World) :
    World × List Action × Except Err Unit :=
  compare_projects diffComparer fuel df w

/-- Models `pull_cmd` (lines 199-202): run with a
`PullComparer(args.clean, args.preview)`. -/
def pull_cmd (clean preview : Bool) (fuel : Nat) (df : String) (w : World) :
    World × List Action × Except Err Unit :=
  compare_projects (pullComparer clean preview w.cwdMeta) fuel df w

/-- Models `push_cmd` (lines 204-208): run with a
`PushComparer(args.clean, args.preview)`. -/
def push_cmd (clean preview : Bool) (fuel : Nat) (df : String) (w : World) :
    World × List Action × Except Err Unit :=
  compare_projects (pushComparer clean preview w.cwdMeta) fuel df w

/-- Look up a path (a list of components) in a tree; descending into a
file, or through a missing entry, fails. -/
def lookupPath : FSNode → List String → Option FSNode
  | t, [] => some t
  | .dir es, n :: p =>
    match lookupE es n with
    | some c => lookupPath c p
    | none => none
  | .file _ _, _ :: _ => none

/-- The disjointness invariant of a comparison (claim C9): no name listed
in `left_only`, `right_only` or `diff_files` is also a `subdirs` key, at
this level and recursively in every sub-comparison. -/
def dcmpDisjoint : DirCmp → Bool
  | .mk _ _ _ _ [] => true
  | .mk lo ro df fn ((n, d) :: sub) =>
    !((lo ++ ro ++ df).contains n) && dcmpDisjoint d && dcmpDisjoint (.mk lo ro df fn sub)

/-- Both sides of an asset pair are existing directories — the condition
under which every `validate` variant proceeds to the recursive walk. -/
def bothDirB (oa la : List (String × FSNode)) (n : String) : Bool :=
  isDirO (lookupE oa n) && isDirO (lookupE la n)

/-- The cleanup a `push --clean` walk performs on the origin tree,
relative to the pre-run pair `(le, re)` (origin and local listings): at
every directory level reached through entries that are directories on
BOTH sides (and not in `filecmp`'s default ignore list), every name
present on the origin side but absent from the local side is gone from
the post-run origin listing `le2`. -/
def RemovedSpec (le re le2 : List (String × FSNode)) : Prop :=
  ∀ p n pe qe, lookupPath (.dir le) p = some (.dir pe) →
    lookupPath (.dir re) p = some (.dir qe) →
    (∀ c ∈ p, ¬(DEFAULT_IGNORES.contains c = true)) →
    ¬(DEFAULT_IGNORES.contains n = true) →
    n ∈ keysOf pe → n ∉ keysOf qe →
    lookupPath (.dir le2) (p ++ [n]) = none

theorem lookupE_setEntry_eq {α : Type} (es : List (String × α)) (n : String) (v : α) :
    lookupE (setEntry es n v) n = some v := by
  induction es with
  | nil => simp [setEntry, lookupE]
  | cons e es ih =>
    obtain ⟨m, w⟩ := e
    by_cases h : m = n
    · simp [setEntry, h, lookupE]
    · simp [setEntry, h, lookupE, ih]

theorem lookupE_setEntry_ne {α : Type} (es : List (String × α)) (n : String) (v : α)
    (m : String) (h : m ≠ n) : lookupE (setEntry es n v) m = lookupE es m := by
  induction es with
  | nil => simp [setEntry, lookupE, if_neg (Ne.symm h)]
  | cons e es ih =>
    obtain ⟨k, w⟩ := e
    by_cases hk : k = n
    · subst hk
      simp [setEntry, lookupE, if_neg (Ne.symm h)]
    · simp [setEntry, hk, lookupE, ih]

theorem setEntry_lookup_self {α : Type} (es : List (String × α)) (n : String) (v : α)
    (h : lookupE es n = some v) : setEntry es n v = es := by
  induction es with
  | nil => simp [lookupE] at h
  | cons e es ih =>
    obtain ⟨k, w⟩ := e
    by_cases hk : k = n
    · subst hk
      simp [lookupE] at h
      simp [setEntry, h]
    · simp [lookupE, hk] at h
      simp [setEntry, hk, ih h]

theorem lookupE_removeEntry {α : Type} (es : List (String × α)) (n m : String) :
    lookupE (removeEntry es n) m = if m = n then none else lookupE es m := by
  induction es with
  | nil => simp [removeEntry, lookupE]
  | cons e es ih =>
    obtain ⟨k, w⟩ := e
    by_cases hk : k = n
    · subst hk
      by_cases hm : m = k
      · subst hm
        simp [removeEntry, ih]
      · simp [removeEntry, lookupE, hm, ih, if_neg (Ne.symm hm)]
    · by_cases hm : k = m
      · subst hm
        simp [removeEntry, hk, lookupE, ih, if_neg (Ne.symm hk)]
      · simp [removeEntry, hk, lookupE, hm, ih]

theorem lookupE_eq_none_iff {α : Type} (es : List (String × α)) (n : String) :
    lookupE es n = none ↔ n ∉ keysOf es := by
  induction es with
  | nil => simp [lookupE, keysOf]
  | cons e es ih =>
    obtain ⟨k, w⟩ := e
    by_cases hk : k = n
    · simp [lookupE, hk, keysOf]
    · simp only [lookupE, if_neg hk, keysOf, List.map_cons, List.mem_cons, not_or]
      constructor
      · intro h1
        exact ⟨Ne.symm hk, (ih.mp h1)⟩
      · intro h2
        exact ih.mpr h2.2

theorem lookupE_isSome_of_mem_keys {α : Type} (es : List (String × α)) (n : String)
    (h : n ∈ keysOf es) : ∃ v, lookupE es n = some v := by
  rcases hv : lookupE es n with _ | v
  · exact absurd ((lookupE_eq_none_iff es n).mp hv) (by simpa using h)
  · exact ⟨v, rfl⟩

theorem mem_insertSorted (a n : String) (l : List String) :
    a ∈ insertSorted n l ↔ a = n ∨ a ∈ l := by
  induction l with
  | nil => simp [insertSorted]
  | cons m ms ih =>
    by_cases h : strLeB n m
    · simp [insertSorted, h]
    · simp [insertSorted, h, ih]
      tauto

theorem insertSorted_perm (n : String) (l : List String) :
    (insertSorted n l).Perm (n :: l) := by
  induction l with
  | nil => simp [insertSorted]
  | cons m ms ih =>
    by_cases h : strLeB n m
    · simp [insertSorted, h]
    · simp only [insertSorted, if_neg h]
      exact (ih.cons m).trans (List.Perm.swap n m ms)

theorem sortNames_perm (l : List String) : (sortNames l).Perm l := by
  induction l with
  | nil => simp [sortNames]
  | cons n ns ih => exact (insertSorted_perm n (sortNames ns)).trans (ih.cons n)

theorem mem_sortNames (a : String) (l : List String) :
    a ∈ sortNames l ↔ a ∈ l := (sortNames_perm l).mem_iff

theorem sortNames_nodup (l : List String) (h : l.Nodup) : (sortNames l).Nodup :=
  (sortNames_perm l).nodup_iff.mpr h

theorem mem_listNames (es : List (String × FSNode)) (n : String) :
    n ∈ listNames es ↔ n ∈ keysOf es ∧ ¬(DEFAULT_IGNORES.contains n = true) := by
  simp [listNames, mem_sortNames, List.mem_filter]

theorem listNames_nodup (es : List (String × FSNode)) (h : (keysOf es).Nodup) :
    (listNames es).Nodup :=
  sortNames_nodup _ (h.filter _)

theorem wfF_dir_nodup (es : List (String × FSNode)) (h : wfF (.dir es) = true) :
    (keysOf es).Nodup := by
  induction es with
  | nil => simp [keysOf]
  | cons e es ih =>
    obtain ⟨k, w⟩ := e
    simp only [wfF, Bool.and_eq_true, Bool.not_eq_true'] at h
    obtain ⟨⟨_, hmem⟩, hrest⟩ := h
    refine List.Nodup.cons ?_ (ih hrest)
    simpa [keysOf, List.contains_eq_any_beq] using hmem

theorem wfF_child (es : List (String × FSNode)) (n : String) (v : FSNode)
    (h : wfF (.dir es) = true) (hl : lookupE es n = some v) : wfF v = true := by
  induction es with
  | nil => simp [lookupE] at hl
  | cons e es ih =>
    obtain ⟨k, w⟩ := e
    simp only [wfF, Bool.and_eq_true] at h
    obtain ⟨⟨hw, _⟩, hrest⟩ := h
    by_cases hk : k = n
    · simp [lookupE, hk] at hl
      subst hl
      exact hw
    · simp [lookupE, hk] at hl
      exact ih hrest hl

theorem heightF_child (es : List (String × FSNode)) (n : String) (v : FSNode)
    (h : lookupE es n = some v) : heightF v < heightF (.dir es) := by
  induction es with
  | nil => simp [lookupE] at h
  | cons e es ih =>
    obtain ⟨k, w⟩ := e
    by_cases hk : k = n
    · simp [lookupE, hk] at h
      subst h
      simp only [heightF]
      omega
    · simp [lookupE, hk] at h
      have := ih h
      simp only [heightF]
      omega

theorem isDirO_isFileO_exclusive (o : Option FSNode) :
    ¬(isDirO o = true ∧ isFileO o = true) := by
  cases o with
  | none => simp [isDirO, isFileO]
  | some v => cases v <;> simp [isDirO, isFileO]

theorem dcmpSubs_spec (f : FSNode → FSNode → Option DirCmp)
    (le re : List (String × FSNode)) (ns : List String)
    (sub : List (String × DirCmp)) (h : dcmpSubs f le re ns = some sub) :
    keysOf sub = ns ∧
      ∀ p ∈ sub, ∃ lc rc, lookupE le p.1 = some lc ∧ lookupE re p.1 = some rc ∧
        f lc rc = some p.2 := by
  induction ns generalizing sub with
  | nil =>
    simp [dcmpSubs] at h
    subst h
    simp [keysOf]
  | cons n ns ih =>
    simp only [dcmpSubs] at h
    split at h
    case _ lc rc hl hr =>
      split at h
      case _ d ds hf hs =>
        simp only [Option.some.injEq] at h
        subst h
        obtain ⟨hk, hall⟩ := ih ds hs
        refine ⟨by simp [keysOf] at hk ⊢; exact hk, ?_⟩
        intro p hp
        rcases List.mem_cons.mp hp with hp | hp
        · subst hp
          exact ⟨lc, rc, hl, hr, hf⟩
        · exact hall p hp
      case _ => simp at h
    case _ => simp at h

theorem dcmpDisjoint_of (lo ro df fn : List String) (sub : List (String × DirCmp))
    (h1 : ∀ p ∈ sub, p.1 ∉ lo ++ ro ++ df)
    (h2 : ∀ p ∈ sub, dcmpDisjoint p.2 = true) :
    dcmpDisjoint (.mk lo ro df fn sub) = true := by
  induction sub with
  | nil => simp [dcmpDisjoint]
  | cons p sub ih =>
    obtain ⟨n, d⟩ := p
    simp only [dcmpDisjoint, Bool.and_eq_true, Bool.not_eq_true']
    refine ⟨⟨?_, h2 (n, d) (by simp)⟩, ih (fun q hq => h1 q (by simp [hq]))
      (fun q hq => h2 q (by simp [hq]))⟩
    have := h1 (n, d) (by simp)
    simpa using this

/-- C9: in every comparison `dcmpOf` produces (at the root and recursively
in every sub-comparison), no name of `left_only`, `right_only` or
`diff_files` is also a `subdirs` key: `left_only`/`right_only` names are
absent from the other side's listing while `subdirs` keys are common, and
`diff_files` names are common files while `subdirs` keys are common
directories, and no object is both. -/
theorem c9_file_dir_domains_disjoint (fuel : Nat) (l r : FSNode) (d : DirCmp)
    (h : dcmpOf fuel l r = some d) : dcmpDisjoint d = true := by
  induction fuel generalizing l r d with
  | zero => simp [dcmpOf] at h
  | succ fuel ih =>
    match l, r with
    | .file c t, _ => simp [dcmpOf] at h
    | .dir le, .file c t => simp [dcmpOf] at h
    | .dir le, .dir re =>
      simp only [dcmpOf] at h
      split at h
      case _ sub hs =>
        simp only [Option.some.injEq] at h
        subst h
        obtain ⟨hk, hall⟩ := dcmpSubs_spec _ _ _ _ _ hs
        refine dcmpDisjoint_of _ _ _ _ _ ?_ ?_
        · intro p hp
          have hpk : p.1 ∈ keysOf sub := by
            simp [keysOf]
            exact ⟨p.2, hp⟩
          rw [hk] at hpk
          have hdirs := (List.mem_filter.mp hpk).2
          have hcommon := (List.mem_filter.mp (List.mem_filter.mp hpk).1)
          intro hmem
          rcases List.mem_append.mp hmem with hmem | hdf
          · rcases List.mem_append.mp hmem with hlo | hro
            · have := (List.mem_filter.mp hlo).2
              simp at this
              exact this (by simpa using hcommon.2)
            · have := (List.mem_filter.mp hro).2
              simp at this
              exact this (by simpa using hcommon.1)
          · have hfile := (List.mem_filter.mp hdf).1
            have hfile2 := (List.mem_filter.mp hfile).2
            simp only [Bool.and_eq_true] at hfile2 hdirs
            exact isDirO_isFileO_exclusive (lookupE le p.1) ⟨hdirs.1, hfile2.1⟩
        · intro p hp
          obtain ⟨lc, rc, _, _, hf⟩ := hall p hp
          exact ih lc rc p.2 hf
      case _ => simp at h

/-- C9 witness: the invariant at a concrete comparison with content in
every classification list. -/
theorem c9_file_dir_domains_disjoint_witness :
    dcmpDisjoint (.mk ["a"] ["b"] ["f"] [] [("s", .mk [] [] [] [] [])]) = true :=
  c9_file_dir_domains_disjoint 2
    (.dir [("a", .file [] 0), ("f", .file [1] 0), ("s", .dir []),
           ("z", .file [] 0)])
    (.dir [("b", .file [] 0), ("f", .file [2] 1), ("s", .dir []),
           ("z", .file [] 0)])
    (.mk ["a"] ["b"] ["f"] [] [("s", .mk [] [] [] [] [])]) rfl

/-- C1: evaluation of `copy_asset` at the failing input.  The source asset
`Foo` has an adjacent sidecar `Foo.meta` in its directory, preview is off,
and no file named `.meta` exists in the process working directory; after
the copy the destination holds `Foo` but NO `Foo.meta` — the sidecar is
never consulted, because line 43 (`src_metafile = src = '.meta'`) binds
`src_metafile` to the literal path `'.meta'` instead of `src + '.meta'`. -/
theorem c1_sidecar_not_copied_eval :
    copy_asset false none ["proj", "Assets", "Foo"] ["Assets", "Foo"]
        [("Foo", .file [1] 10), ("Foo.meta", .file [2] 20)] [] "Foo"
      = .ok ([("Foo", .file [1] 10)],
          [.copyAnnounce ["proj", "Assets", "Foo"] ["Assets", "Foo"]])
    ∧ lookupE [(("Foo" : String), FSNode.file [1] 10)] "Foo.meta" = none :=
  ⟨rfl, rfl⟩

/-- C2: when no manifest file is discoverable in the current directory or
any ancestor, every subcommand aborts with a `NameError` (line 175
formats an error message from the undefined name `dependfile`) BEFORE
printing the intended message and before touching any project folder: the
world is returned unchanged and the log is empty. -/
theorem c2_missing_manifest_nameerror (fuel : Nat) (df : String) (w : World)
    (clean preview : Bool) (h : local_root df w.chain = none) :
    diff_cmd fuel df w = (w, [], .error .nameError)
    ∧ pull_cmd clean preview fuel df w = (w, [], .error .nameError)
    ∧ push_cmd clean preview fuel df w = (w, [], .error .nameError) := by
  refine ⟨?_, ?_, ?_⟩ <;>
    simp [diff_cmd, pull_cmd, push_cmd, compare_projects, load_conf, h]

/-- C2 witness: a concrete world whose directory chain (current directory,
then the root) contains no `depend.json` anywhere. -/
theorem c2_missing_manifest_nameerror_witness :
    diff_cmd 1 "depend.json"
        ⟨[["foo.txt"], []], ⟨[]⟩, [], [], none⟩ =
      (⟨[["foo.txt"], []], ⟨[]⟩, [], [], none⟩, [], .error .nameError)
    ∧ pull_cmd true false 1 "depend.json"
        ⟨[["foo.txt"], []], ⟨[]⟩, [], [], none⟩ =
      (⟨[["foo.txt"], []], ⟨[]⟩, [], [], none⟩, [], .error .nameError)
    ∧ push_cmd true false 1 "depend.json"
        ⟨[["foo.txt"], []], ⟨[]⟩, [], [], none⟩ =
      (⟨[["foo.txt"], []], ⟨[]⟩, [], [], none⟩, [], .error .nameError) :=
  c2_missing_manifest_nameerror 1 "depend.json"
    ⟨[["foo.txt"], []], ⟨[]⟩, [], [], none⟩ true false (by decide)

/-- C3 counterexample: origin has a directory `x`, local has a regular
file `x`; running the report policy over the pair dispatches NOTHING (the
log is empty, in particular no `D:` line for `x`), and the comparison
classifies `x` into `common_funny` with empty `diff_files` — refuting the
claim that a file/directory type mismatch is dispatched to the `diff()`
handler. -/
theorem c3_counterexample_type_mismatch_not_dispatched :
    visit_dcmp diffComparer 2 ["o"] ["l"]
        (.dir [("x", .dir [])]) (.dir [("x", .file [] 0)])
      = .ok (.dir [("x", .dir [])], .dir [("x", .file [] 0)], [])
    ∧ dcmpOf 2 (.dir [("x", .dir [])]) (.dir [("x", .file [] 0)])
      = some (.mk [] [] [] ["x"] []) :=
  ⟨rfl, rfl⟩

/-- C5 counterexample: under the Pull policy with preview off, a pair
whose two sides are both missing makes `validate` raise
`FileNotFoundError` from the bootstrap `copy_asset` (line 89 copies a
nonexistent origin), rather than returning false and skipping. -/
theorem c5_counterexample_validate_raises :
    (pullComparer false false none).validate ["p", "Assets", "A"] ["Assets", "A"]
        [] [] "A" = .error .fileNotFound :=
  rfl

/-- C6 counterexample: under the Pull policy with the clean flag SET but
preview also set, a local-only entry `x` is announced for removal but NOT
removed — the handler returns the local listing unchanged — refuting
`removed if and only if the clean flag is set` as stated (it omits the
preview condition). -/
theorem c6_counterexample_clean_preview_no_removal :
    (pullComparer true true none).right_only ["o"] ["l"]
        [] [("x", .file [] 0)] "x"
      = .ok ([], [("x", .file [] 0)], [.removeAnnounce ["l", "x"]])
    ∧ lookupE [(("x" : String), FSNode.file [] 0)] "x" = some (.file [] 0) :=
  ⟨rfl, rfl⟩

/-- C8: evaluation at the failing input.  Origin holds `x` (content
`[1,1]`, mtime 1) and sidecar `x.meta` (content `[9]`, mtime 5); local
holds a differing `x` and an identical `x.meta`; the working directory
holds a file `.meta` with content `[7]`, mtime 3.  The first pull run
(clean off, preview off) copies `x` — and, through the line-43 slip,
overwrites local `x.meta` with the working-directory `.meta` file.  The
comparison of the resulting pair therefore still lists `x.meta` in
`diff_files`, so the second run is NOT a no-op: idempotence fails.  (The
first conjunct is the first run; the second is the classification the
second run sees; the third checks the pre-run pair had only `x`
differing, so the residual difference was created by the run itself.) -/
theorem c8_pull_twice_not_idempotent_eval :
    visit_dcmp (pullComparer false false (some ([7], 3))) 2 ["o"] ["l"]
        (.dir [("x", .file [1, 1] 1), ("x.meta", .file [9] 5)])
        (.dir [("x", .file [2] 2), ("x.meta", .file [9] 5)])
      = .ok (.dir [("x", .file [1, 1] 1), ("x.meta", .file [9] 5)],
          .dir [("x", .file [1, 1] 1), ("x.meta", .file [7] 3)],
          [.copyAnnounce ["o", "x"] ["l", "x"]])
    ∧ (dcmpOf 2 (.dir [("x", .file [1, 1] 1), ("x.meta", .file [9] 5)])
          (.dir [("x", .file [1, 1] 1), ("x.meta", .file [7] 3)])).map
        DirCmp.diff_files = some ["x.meta"]
    ∧ (dcmpOf 2 (.dir [("x", .file [1, 1] 1), ("x.meta", .file [9] 5)])
          (.dir [("x", .file [2] 2), ("x.meta", .file [9] 5)])).map
        DirCmp.diff_files = some ["x"] :=
  ⟨rfl, rfl, rfl⟩

theorem isDirO_false_of_isFileO (o : Option FSNode) (h : isFileO o = true) :
    isDirO o = false := by
  cases o with
  | none => simp [isFileO] at h
  | some v => cases v <;> simp_all [isFileO, isDirO]

theorem isFileO_false_of_isDirO (o : Option FSNode) (h : isDirO o = true) :
    isFileO o = false := by
  cases o with
  | none => simp [isDirO] at h
  | some v => cases v <;> simp_all [isFileO, isDirO]

/-- C3 amended: a name present under both roots with mismatched types
(file on one side, directory on the other) is classified into
`common_funny` and appears in none of the lists `visit_dcmp` iterates
(`left_only`, `right_only`, `diff_files`, `subdirs`) — it is never
dispatched to any handler, in particular not to `diff()`; and when
`diff()` is dispatched, the report policy's handler prints the path
formed from the right-hand root. -/
theorem c3_amended_type_mismatch_in_common_funny :
    (∀ (fuel : Nat) (le re : List (String × FSNode)) (d : DirCmp) (n : String),
      dcmpOf fuel (.dir le) (.dir re) = some d →
      ¬(DEFAULT_IGNORES.contains n = true) →
      n ∈ keysOf le → n ∈ keysOf re →
      ((isFileO (lookupE le n) = true ∧ isDirO (lookupE re n) = true) ∨
        (isDirO (lookupE le n) = true ∧ isFileO (lookupE re n) = true)) →
      n ∈ d.common_funny ∧ n ∉ d.left_only ∧ n ∉ d.right_only ∧
        n ∉ d.diff_files ∧ n ∉ keysOf d.subdirs)
    ∧ (∀ (lp rp : List String) (le re : List (String × FSNode)) (n : String),
        diffComparer.diff lp rp le re n = .ok (le, re, [.printD (rp ++ [n])])) := by
  constructor
  · intro fuel le re d n h hig hkl hkr hmm
    match fuel with
    | 0 => simp [dcmpOf] at h
    | fuel+1 =>
      simp only [dcmpOf] at h
      split at h
      case _ sub hs =>
        simp only [Option.some.injEq] at h
        subst h
        obtain ⟨hk, _⟩ := dcmpSubs_spec _ _ _ _ _ hs
        have hln : n ∈ listNames le := (mem_listNames le n).mpr ⟨hkl, hig⟩
        have hrn : n ∈ listNames re := (mem_listNames re n).mpr ⟨hkr, hig⟩
        have hA : (isDirO (lookupE le n) && isDirO (lookupE re n)) = false := by
          rcases hmm with ⟨hf, _⟩ | ⟨_, hf⟩
          · simp [isDirO_false_of_isFileO _ hf]
          · simp [isDirO_false_of_isFileO _ hf]
        have hB : (isFileO (lookupE le n) && isFileO (lookupE re n)) = false := by
          rcases hmm with ⟨_, hd⟩ | ⟨hd, _⟩
          · simp [isFileO_false_of_isDirO _ hd]
          · simp [isFileO_false_of_isDirO _ hd]
        have hcommon : n ∈ List.filter (fun m => (listNames re).contains m) (listNames le) :=
          List.mem_filter.mpr ⟨hln, by simpa using hrn⟩
        refine ⟨?_, ?_, ?_, ?_, ?_⟩
        · simp only [DirCmp.common_funny]
          exact List.mem_filter.mpr ⟨hcommon, by simp [hA, hB]⟩
        · simp only [DirCmp.left_only]
          intro hmem
          have h2 := (List.mem_filter.mp hmem).2
          simp at h2
          exact h2 (by simpa using hrn)
        · simp only [DirCmp.right_only]
          intro hmem
          have h2 := (List.mem_filter.mp hmem).2
          simp at h2
          exact h2 (by simpa using hln)
        · simp only [DirCmp.diff_files]
          intro hmem
          have h2 := (List.mem_filter.mp (List.mem_filter.mp hmem).1).2
          simp [hB] at h2
        · simp only [DirCmp.subdirs]
          rw [hk]
          intro hmem
          have h2 := (List.mem_filter.mp hmem).2
          simp [hA] at h2
      case _ => simp at h
  · intro lp rp le re n
    rfl

/-- C3 amended witness: instantiation at a concrete comparison with a
type-mismatched name `x`, plus the right-hand-path print of the `diff`
handler. -/
theorem c3_amended_type_mismatch_in_common_funny_witness :
    (("x" : String) ∈ (DirCmp.mk [] [] [] ["x"] []).common_funny ∧
      ("x" : String) ∉ (DirCmp.mk [] [] [] ["x"] []).left_only ∧
      ("x" : String) ∉ (DirCmp.mk [] [] [] ["x"] []).right_only ∧
      ("x" : String) ∉ (DirCmp.mk [] [] [] ["x"] []).diff_files ∧
      ("x" : String) ∉ keysOf (DirCmp.mk [] [] [] ["x"] []).subdirs)
    ∧ diffComparer.diff ["o"] ["l"] [] [] "z" = .ok ([], [], [.printD ["l", "z"]]) :=
  ⟨c3_amended_type_mismatch_in_common_funny.1 2
      [("x", .file [] 0)] [("x", .dir [])] (.mk [] [] [] ["x"] []) "x"
      rfl (by decide) (by decide) (by decide) (Or.inl ⟨rfl, rfl⟩),
    c3_amended_type_mismatch_in_common_funny.2 ["o"] ["l"] [] [] "z"⟩

/-- C5 amended: for all three policies, `validate` returns true exactly
when both sides of the pair are existing directories.  When a side is not
a directory, the Report variant always returns false (printing one line,
never raising); the Pull/Push variants return false after their bootstrap
copy when that copy succeeds or is skipped, but PROPAGATE an error when
the bootstrap `copy_asset` raises (e.g. pull with both sides missing, or a
bootstrap onto a destination occupied by a file); an error can only arise
when the pair would have been skipped anyway. -/
theorem c5_amended_validate_characterization
    (op lp : List String) (oa la : List (String × FSNode)) (n : String)
    (clean preview : Bool) (meta : Option (List Nat × Nat)) :
    (diffComparer.validate op lp oa la n =
        .ok (bothDirB oa la n, oa, la,
          if isDirO (lookupE la n) = false then [.printL op]
          else if isDirO (lookupE oa n) = false then [.printR lp] else []))
    ∧ (bothDirB oa la n = true →
        (pullComparer clean preview meta).validate op lp oa la n = .ok (true, oa, la, [])
        ∧ (pushComparer clean preview meta).validate op lp oa la n = .ok (true, oa, la, []))
    ∧ (∀ b oa1 la1 g,
        (pullComparer clean preview meta).validate op lp oa la n = .ok (b, oa1, la1, g) →
        ((b = true ↔ bothDirB oa la n = true) ∧ oa1 = oa))
    ∧ (∀ b oa1 la1 g,
        (pushComparer clean preview meta).validate op lp oa la n = .ok (b, oa1, la1, g) →
        ((b = true ↔ bothDirB oa la n = true) ∧ la1 = la))
    ∧ (∀ e, (pullComparer clean preview meta).validate op lp oa la n = .error e →
        bothDirB oa la n = false)
    ∧ (∀ e, (pushComparer clean preview meta).validate op lp oa la n = .error e →
        bothDirB oa la n = false) := by
  refine ⟨?_, ?_, ?_, ?_, ?_, ?_⟩
  · by_cases hla : isDirO (lookupE la n) = true
    · by_cases hoa : isDirO (lookupE oa n) = true
      · simp [diffComparer, hla, hoa, bothDirB]
      · simp only [Bool.not_eq_true] at hoa
        simp [diffComparer, hla, hoa, bothDirB]
    · simp only [Bool.not_eq_true] at hla
      simp [diffComparer, hla, bothDirB]
  · intro hb
    simp only [bothDirB, Bool.and_eq_true] at hb
    constructor <;> simp [pullComparer, pushComparer, hb.1, hb.2]
  · intro b oa1 la1 g hok
    by_cases hla : isDirO (lookupE la n) = true
    · by_cases hoa : isDirO (lookupE oa n) = true
      · simp [pullComparer, hla, hoa] at hok
        obtain ⟨h1, h2, h3, _⟩ := hok
        subst h1 h2
        simp [bothDirB, hla, hoa]
      · simp only [Bool.not_eq_true] at hoa
        simp [pullComparer, hla, hoa] at hok
        obtain ⟨h1, h2, h3, _⟩ := hok
        subst h1 h2
        simp [bothDirB, hla, hoa]
    · simp only [Bool.not_eq_true] at hla
      simp only [pullComparer, hla] at hok
      simp only [Bool.not_false, if_pos] at hok
      rcases hc : copy_asset preview meta op lp oa la n with e | p
      · rw [hc] at hok
        simp at hok
      · rw [hc] at hok
        obtain ⟨la2, g2⟩ := p
        simp at hok
        obtain ⟨h1, h2, h3, _⟩ := hok
        subst h1 h2
        simp [bothDirB, hla]
  · intro b oa1 la1 g hok
    by_cases hla : isDirO (lookupE la n) = true
    · by_cases hoa : isDirO (lookupE oa n) = true
      · simp [pushComparer, hla, hoa] at hok
        obtain ⟨h1, h2, h3, _⟩ := hok
        subst h1 h3
        simp [bothDirB, hla, hoa]
      · simp only [Bool.not_eq_true] at hoa
        simp only [pushComparer, hla] at hok
        simp only [Bool.not_true, Bool.false_eq_true, if_false, hoa,
          Bool.not_false, if_pos] at hok
        rcases hc : copy_asset preview meta lp op la oa n with e | p
        · rw [hc] at hok
          simp at hok
        · rw [hc] at hok
          obtain ⟨oa2, g2⟩ := p
          simp at hok
          obtain ⟨h1, h2, h3, _⟩ := hok
          subst h1 h3
          simp [bothDirB, hoa]
    · simp only [Bool.not_eq_true] at hla
      simp [pushComparer, hla] at hok
      obtain ⟨h1, h2, h3, _⟩ := hok
      subst h1 h3
      simp [bothDirB, hla]
  · intro e he
    by_cases hla : isDirO (lookupE la n) = true
    · by_cases hoa : isDirO (lookupE oa n) = true
      · simp [pullComparer, hla, hoa] at he
      · simp only [Bool.not_eq_true] at hoa
        simp [pullComparer, hla, hoa] at he
    · simp only [Bool.not_eq_true] at hla
      simp [bothDirB, hla]
  · intro e he
    by_cases hla : isDirO (lookupE la n) = true
    · by_cases hoa : isDirO (lookupE oa n) = true
      · simp [pushComparer, hla, hoa] at he
      · simp only [Bool.not_eq_true] at hoa
        simp [bothDirB, hoa]
    · simp only [Bool.not_eq_true] at hla
      simp [pushComparer, hla] at he

/-- C5 amended witness: a pair whose two sides are existing directories
makes every validate variant proceed with no side effect. -/
theorem c5_amended_validate_characterization_witness :
    (pullComparer true false none).validate ["p", "Assets", "A"] ["Assets", "A"]
        [("A", .dir [])] [("A", .dir [])] "A"
      = .ok (true, [("A", .dir [])], [("A", .dir [])], [])
    ∧ (pushComparer true false none).validate ["p", "Assets", "A"] ["Assets", "A"]
        [("A", .dir [])] [("A", .dir [])] "A"
      = .ok (true, [("A", .dir [])], [("A", .dir [])], []) :=
  (c5_amended_validate_characterization ["p", "Assets", "A"] ["Assets", "A"]
    [("A", .dir [])] [("A", .dir [])] "A" true false none).2.1 (by decide)

/-- C6 amended: under the Pull policy a local-only entry is removed iff
the clean flag is set AND preview is off; with clean set but preview on
the removal is only announced; with clean unset the handler does nothing
and prints nothing.  Mirror statements for the Push policy's origin-only
handler. -/
theorem c6_amended_clean_remove_semantics
    (lp rp : List String) (le re : List (String × FSNode)) (n : String)
    (preview : Bool) (meta : Option (List Nat × Nat)) :
    ((pullComparer false preview meta).right_only lp rp le re n = .ok (le, re, []))
    ∧ (n ∈ keysOf re →
        ∃ re2, (pullComparer true false meta).right_only lp rp le re n =
            .ok (le, re2, [.removeAnnounce (rp ++ [n])])
          ∧ lookupE re2 n = none
          ∧ ∀ m, m ≠ n → lookupE re2 m = lookupE re m)
    ∧ ((pullComparer true true meta).right_only lp rp le re n =
        .ok (le, re, [.removeAnnounce (rp ++ [n])]))
    ∧ ((pushComparer false preview meta).left_only lp rp le re n = .ok (le, re, []))
    ∧ (n ∈ keysOf le →
        ∃ le2, (pushComparer true false meta).left_only lp rp le re n =
            .ok (le2, re, [.removeAnnounce (lp ++ [n])])
          ∧ lookupE le2 n = none
          ∧ ∀ m, m ≠ n → lookupE le2 m = lookupE le m)
    ∧ ((pushComparer true true meta).left_only lp rp le re n =
        .ok (le, re, [.removeAnnounce (lp ++ [n])])) := by
  refine ⟨rfl, ?_, rfl, rfl, ?_, rfl⟩
  · intro hmem
    obtain ⟨v, hv⟩ := lookupE_isSome_of_mem_keys re n hmem
    refine ⟨removeEntry re n, ?_, ?_, ?_⟩
    · simp [pullComparer, remove_asset, hv]
    · simp [lookupE_removeEntry]
    · intro m hm
      simp [lookupE_removeEntry, hm]
  · intro hmem
    obtain ⟨v, hv⟩ := lookupE_isSome_of_mem_keys le n hmem
    refine ⟨removeEntry le n, ?_, ?_, ?_⟩
    · simp [pushComparer, remove_asset, hv]
    · simp [lookupE_removeEntry]
    · intro m hm
      simp [lookupE_removeEntry, hm]

/-- C6 amended witness: with clean set and preview off, a concrete
local-only entry is removed by the Pull policy's handler. -/
theorem c6_amended_clean_remove_semantics_witness :
    ∃ re2, (pullComparer true false none).right_only ["o"] ["l"]
        [] [("x", .file [] 0)] "x" = .ok ([], re2, [.removeAnnounce ["l", "x"]])
      ∧ lookupE re2 "x" = none
      ∧ ∀ m, m ≠ "x" → lookupE re2 m = lookupE [(("x" : String), FSNode.file [] 0)] m :=
  (c6_amended_clean_remove_semantics ["o"] ["l"] [] [("x", .file [] 0)] "x"
    false none).2.1 (by decide)

theorem runHandler_preserves
    (h : List (String × FSNode) → List (String × FSNode) → String →
      Except Err (List (String × FSNode) × List (String × FSNode) × List Action))
    (hpres : ∀ le re n le2 re2 g, h le re n = .ok (le2, re2, g) → le2 = le ∧ re2 = re)
    (ns : List String) (le re : List (String × FSNode)) (log : List Action)
    (le2 re2 : List (String × FSNode)) (g : List Action)
    (hr : runHandler h ns le re log = .ok (le2, re2, g)) : le2 = le ∧ re2 = re := by
  induction ns generalizing le re log with
  | nil =>
    simp [runHandler] at hr
    exact ⟨hr.1.symm, hr.2.1.symm⟩
  | cons n ns ih =>
    simp only [runHandler] at hr
    split at hr
    case _ a b g1 hp =>
      obtain ⟨ha, hb⟩ := hpres le re n a b g1 hp
      subst ha hb
      exact ih _ _ _ hr
    case _ => simp at hr

theorem visitSubdirs_preserves
    (f : List String → List String → FSNode → FSNode →
      Except Err (FSNode × FSNode × List Action))
    (hf : ∀ lp rp l r l2 r2 g, f lp rp l r = .ok (l2, r2, g) → l2 = l ∧ r2 = r)
    (lp rp : List String) (ns : List String) (le re : List (String × FSNode))
    (log : List Action) (L R : FSNode) (g : List Action)
    (h : visitSubdirs f lp rp ns le re log = .ok (L, R, g)) :
    L = .dir le ∧ R = .dir re := by
  induction ns generalizing le re log with
  | nil =>
    simp [visitSubdirs] at h
    exact ⟨h.1.symm, h.2.1.symm⟩
  | cons n ns ih =>
    simp only [visitSubdirs] at h
    split at h
    case _ lc rc hlc hrc =>
      split at h
      case _ lc2 rc2 g2 hp =>
        obtain ⟨hl2, hr2⟩ := hf _ _ _ _ _ _ _ hp
        rw [hl2, hr2, setEntry_lookup_self le n lc hlc,
          setEntry_lookup_self re n rc hrc] at h
        exact ih _ _ _ h
      case _ => simp at h
    case _ => simp at h

theorem visit_dcmp_preserves (cmp : Comparer)
    (hlo : ∀ lp rp le re n le2 re2 g,
      cmp.left_only lp rp le re n = .ok (le2, re2, g) → le2 = le ∧ re2 = re)
    (hro : ∀ lp rp le re n le2 re2 g,
      cmp.right_only lp rp le re n = .ok (le2, re2, g) → le2 = le ∧ re2 = re)
    (hdf : ∀ lp rp le re n le2 re2 g,
      cmp.diff lp rp le re n = .ok (le2, re2, g) → le2 = le ∧ re2 = re)
    (fuel : Nat) (lp rp : List String) (l r L R : FSNode) (g : List Action)
    (h : visit_dcmp cmp fuel lp rp l r = .ok (L, R, g)) : L = l ∧ R = r := by
  induction fuel generalizing lp rp l r L R g with
  | zero => simp [visit_dcmp] at h
  | succ fuel ih =>
    match l, r with
    | .file c t, _ => simp [visit_dcmp] at h
    | .dir le, .file c t => simp [visit_dcmp] at h
    | .dir le, .dir re =>
      simp only [visit_dcmp] at h
      split at h
      case _ => simp at h
      case _ le1 re1 g1 h1 =>
        obtain ⟨ha, hb⟩ := runHandler_preserves _ (hlo lp rp) _ _ _ _ _ _ _ h1
        subst ha hb
        split at h
        case _ => simp at h
        case _ le2 re2 g2 h2 =>
          obtain ⟨ha, hb⟩ := runHandler_preserves _ (hro lp rp) _ _ _ _ _ _ _ h2
          subst ha hb
          split at h
          case _ => simp at h
          case _ le3 re3 g3 h3 =>
            obtain ⟨ha, hb⟩ := runHandler_preserves _ (hdf lp rp) _ _ _ _ _ _ _ h3
            subst ha hb
            exact visitSubdirs_preserves _ (fun lp2 rp2 l2 r2 L2 R2 g2 hh =>
              ih lp2 rp2 l2 r2 L2 R2 g2 hh) _ _ _ _ _ _ _ _ _ h

theorem setEntry_setEntry {α : Type} (es : List (String × α)) (k : String) (v v2 : α) :
    setEntry (setEntry es k v) k v2 = setEntry es k v2 := by
  induction es with
  | nil => simp [setEntry]
  | cons e es ih =>
    obtain ⟨m, w⟩ := e
    by_cases hm : m = k
    · simp [setEntry, hm]
    · simp [setEntry, hm, ih]

theorem originEntries_set_self (os : List (String × List (String × FSNode)))
    (k p : String) :
    (lookupE (setEntry os k ((lookupE os k).getD [])) p).getD []
      = (lookupE os p).getD ([] : List (String × FSNode)) := by
  by_cases hp : p = k
  · subst hp
    rw [lookupE_setEntry_eq]
    rfl
  · rw [lookupE_setEntry_ne _ _ _ _ hp]

theorem pull_preview_validate_preserves (clean : Bool) (meta : Option (List Nat × Nat))
    (op lp : List String) (oa la : List (String × FSNode)) (n : String)
    (b : Bool) (oa1 la1 : List (String × FSNode)) (g : List Action)
    (h : (pullComparer clean true meta).validate op lp oa la n = .ok (b, oa1, la1, g)) :
    oa1 = oa ∧ la1 = la := by
  have hc : copy_asset true meta op lp oa la n = .ok (la, [.copyAnnounce op lp]) := rfl
  by_cases hla : isDirO (lookupE la n) = true
  · by_cases hoa : isDirO (lookupE oa n) = true
    · simp [pullComparer, hla, hoa] at h
      exact ⟨h.2.1.symm, h.2.2.1.symm⟩
    · simp only [Bool.not_eq_true] at hoa
      simp [pullComparer, hla, hoa] at h
      exact ⟨h.2.1.symm, h.2.2.1.symm⟩
  · simp only [Bool.not_eq_true] at hla
    simp [pullComparer, hla, hc] at h
    exact ⟨h.2.1.symm, h.2.2.1.symm⟩

theorem pull_preview_handlers_preserve (clean : Bool) (meta : Option (List Nat × Nat)) :
    (∀ lp rp le re n le2 re2 g,
      (pullComparer clean true meta).left_only lp rp le re n = .ok (le2, re2, g) →
        le2 = le ∧ re2 = re)
    ∧ (∀ lp rp le re n le2 re2 g,
      (pullComparer clean true meta).right_only lp rp le re n = .ok (le2, re2, g) →
        le2 = le ∧ re2 = re)
    ∧ (∀ lp rp le re n le2 re2 g,
      (pullComparer clean true meta).diff lp rp le re n = .ok (le2, re2, g) →
        le2 = le ∧ re2 = re) := by
  refine ⟨?_, ?_, ?_⟩ <;> intro lp rp le re n le2 re2 g h
  · have hc : copy_asset true meta (lp ++ [n]) (rp ++ [n]) le re n =
        .ok (re, [.copyAnnounce (lp ++ [n]) (rp ++ [n])]) := rfl
    simp [pullComparer, hc] at h
    exact ⟨h.1.symm, h.2.1.symm⟩
  · by_cases hcl : clean = true
    · have hc : remove_asset true (rp ++ [n]) re n =
          .ok (re, [.removeAnnounce (rp ++ [n])]) := rfl
      simp [pullComparer, hcl, hc] at h
      exact ⟨h.1.symm, h.2.1.symm⟩
    · simp only [Bool.not_eq_true] at hcl
      simp [pullComparer, hcl] at h
      exact ⟨h.1.symm, h.2.1.symm⟩
  · have hc : copy_asset true meta (lp ++ [n]) (rp ++ [n]) le re n =
        .ok (re, [.copyAnnounce (lp ++ [n]) (rp ++ [n])]) := rfl
    simp [pullComparer, hc] at h
    exact ⟨h.1.symm, h.2.1.symm⟩

theorem runAssets_preserves_obs (cmp : Comparer) (fuel : Nat) (ppath : String)
    (hval : ∀ op lp oa la n b oa1 la1 g,
      cmp.validate op lp oa la n = .ok (b, oa1, la1, g) → oa1 = oa ∧ la1 = la)
    (hlo : ∀ lp rp le re n le2 re2 g,
      cmp.left_only lp rp le re n = .ok (le2, re2, g) → le2 = le ∧ re2 = re)
    (hro : ∀ lp rp le re n le2 re2 g,
      cmp.right_only lp rp le re n = .ok (le2, re2, g) → le2 = le ∧ re2 = re)
    (hdf : ∀ lp rp le re n le2 re2 g,
      cmp.diff lp rp le re n = .ok (le2, re2, g) → le2 = le ∧ re2 = re)
    (as : List String) (w : World) (log : List Action) :
    (runAssets cmp fuel ppath as w log).1.localA = w.localA
    ∧ ∀ p, originEntries (runAssets cmp fuel ppath as w log).1 p = originEntries w p := by
  induction as generalizing w log with
  | nil => exact ⟨rfl, fun p => rfl⟩
  | cons a as ih =>
    rcases hv : cmp.validate [ppath, "Assets", a] ["Assets", a]
        (originEntries w ppath) w.localA a with e | q
    · simp [runAssets, hv]
    · obtain ⟨b, oa1, la1, g⟩ := q
      obtain ⟨ho1, hl1⟩ := hval _ _ _ _ _ _ _ _ _ hv
      subst ho1 hl1
      have hw1obs : ∀ p,
          originEntries { w with
            origins := setEntry w.origins ppath (originEntries w ppath),
            localA := w.localA } p = originEntries w p := by
        intro p
        simp only [originEntries]
        exact originEntries_set_self w.origins ppath p
      by_cases hb : b = true
      · subst hb
        rcases hlN : lookupE (originEntries w ppath) a with _ | lN
        · simp [runAssets, hv, hlN]
          exact hw1obs
        · rcases hrN : lookupE w.localA a with _ | rN
          · simp [runAssets, hv, hlN, hrN]
            exact hw1obs
          · rcases hvis : visit_dcmp cmp fuel [ppath, "Assets", a] ["Assets", a] lN rN
                with e | t
            · simp [runAssets, hv, hlN, hrN, hvis]
              exact hw1obs
            · obtain ⟨lN2, rN2, g2⟩ := t
              obtain ⟨hL, hR⟩ := visit_dcmp_preserves cmp hlo hro hdf _ _ _ _ _ _ _ _ hvis
              rw [hL, hR] at hvis
              simp only [runAssets, hv, hlN, hrN, hvis]
              have hcollapse : setEntry ((lookupE w.origins ppath).getD []) a lN
                  = (lookupE w.origins ppath).getD [] :=
                setEntry_lookup_self _ a lN hlN
              have hw2 : ∀ p, originEntries { w with
                  origins := setEntry (setEntry w.origins ppath (originEntries w ppath))
                    ppath (setEntry (originEntries w ppath) a lN),
                  localA := setEntry w.localA a rN } p = originEntries w p := by
                intro p
                simp only [originEntries]
                rw [setEntry_setEntry, hcollapse]
                exact originEntries_set_self w.origins ppath p
              have hloc2 : setEntry w.localA a rN = w.localA :=
                setEntry_lookup_self w.localA a rN hrN
              exact ⟨(ih _ _).1.trans hloc2, fun p => ((ih _ _).2 p).trans (hw2 p)⟩
      · simp only [Bool.not_eq_true] at hb
        subst hb
        simp only [runAssets, hv, Bool.false_eq_true, if_false]
        exact ⟨(ih _ _).1, fun p => ((ih _ _).2 p).trans (hw1obs p)⟩

theorem runProjects_preserves_obs (cmp : Comparer) (fuel : Nat)
    (hval : ∀ op lp oa la n b oa1 la1 g,
      cmp.validate op lp oa la n = .ok (b, oa1, la1, g) → oa1 = oa ∧ la1 = la)
    (hlo : ∀ lp rp le re n le2 re2 g,
      cmp.left_only lp rp le re n = .ok (le2, re2, g) → le2 = le ∧ re2 = re)
    (hro : ∀ lp rp le re n le2 re2 g,
      cmp.right_only lp rp le re n = .ok (le2, re2, g) → le2 = le ∧ re2 = re)
    (hdf : ∀ lp rp le re n le2 re2 g,
      cmp.diff lp rp le re n = .ok (le2, re2, g) → le2 = le ∧ re2 = re)
    (ps : List Proj) (w : World) (log : List Action) :
    (runProjects cmp fuel ps w log).1.localA = w.localA
    ∧ ∀ p, originEntries (runProjects cmp fuel ps w log).1 p = originEntries w p := by
  induction ps generalizing w log with
  | nil => exact ⟨rfl, fun p => rfl⟩
  | cons pr ps ih =>
    obtain ⟨hal, hao⟩ := runAssets_preserves_obs cmp fuel pr.path hval hlo hro hdf
      pr.assets w (log ++ [.printWith pr.path])
    rcases hra : runAssets cmp fuel pr.path pr.assets w (log ++ [.printWith pr.path])
        with ⟨w1, log1, res⟩
    rw [hra] at hal hao
    cases res with
    | ok u =>
      obtain ⟨⟩ := u
      simp only [runProjects, hra]
      obtain ⟨ihl, iho⟩ := ih w1 log1
      exact ⟨by rw [ihl]; exact hal, fun p => by rw [iho p]; exact hao p⟩
    | error e =>
      simp only [runProjects, hra]
      exact ⟨hal, hao⟩

/-- C4: with the preview flag set, `copy_asset` and `remove_asset` print
their announcement and mutate nothing (returning before any `shutil`
call, including the line-43 sidecar write); consequently a whole `pull`
run with `--preview` leaves the local `Assets` listing and every origin
project's `Assets` listing exactly as they were, whatever the manifest,
the clean flag, the working-directory `.meta` file, and the tree contents
are, and whether or not the run aborts with an error. -/
theorem c4_preview_never_mutates :
    (∀ meta sp dp s d n, copy_asset true meta sp dp s d n = .ok (d, [.copyAnnounce sp dp]))
    ∧ (∀ p d n, remove_asset true p d n = .ok (d, [.removeAnnounce p]))
    ∧ (∀ clean fuel df w,
        (pull_cmd clean true fuel df w).1.localA = w.localA
        ∧ ∀ p, originEntries (pull_cmd clean true fuel df w).1 p = originEntries w p) := by
  refine ⟨fun meta sp dp s d n => rfl, fun p d n => rfl, ?_⟩
  intro clean fuel df w
  obtain ⟨h1, h2, h3⟩ := pull_preview_handlers_preserve clean w.cwdMeta
  have hval := fun op lp oa la n b oa1 la1 g h =>
    pull_preview_validate_preserves clean w.cwdMeta op lp oa la n b oa1 la1 g h
  simp only [pull_cmd, compare_projects]
  rcases hl : load_conf df w with _ | conf
  · exact ⟨rfl, fun p => rfl⟩
  · exact runProjects_preserves_obs _ fuel hval h1 h2 h3 conf.projects w []

theorem runHandler_log
    (h : List (String × FSNode) → List (String × FSNode) → String →
      Except Err (List (String × FSNode) × List (String × FSNode) × List Action))
    (hP : ∀ le re n le2 re2 g, h le re n = .ok (le2, re2, g) →
      ∀ a ∈ g, a.isPrint = true)
    (ns : List String) (le re : List (String × FSNode)) (log : List Action)
    (le2 re2 : List (String × FSNode)) (g2 : List Action)
    (hr : runHandler h ns le re log = .ok (le2, re2, g2))
    (hlog : ∀ a ∈ log, a.isPrint = true) : ∀ a ∈ g2, a.isPrint = true := by
  induction ns generalizing le re log with
  | nil =>
    simp [runHandler] at hr
    obtain ⟨_, _, hg⟩ := hr
    subst hg
    exact hlog
  | cons n ns ih =>
    simp only [runHandler] at hr
    split at hr
    case _ a b g1 hp =>
      refine ih _ _ _ hr ?_
      intro x hx
      rcases List.mem_append.mp hx with hx | hx
      · exact hlog x hx
      · exact hP _ _ _ _ _ _ hp x hx
    case _ => simp at hr

theorem visitSubdirs_log
    (f : List String → List String → FSNode → FSNode →
      Except Err (FSNode × FSNode × List Action))
    (hf : ∀ lp rp l r L R g, f lp rp l r = .ok (L, R, g) → ∀ a ∈ g, a.isPrint = true)
    (lp rp : List String) (ns : List String) (le re : List (String × FSNode))
    (log : List Action) (L R : FSNode) (g : List Action)
    (h : visitSubdirs f lp rp ns le re log = .ok (L, R, g))
    (hlog : ∀ a ∈ log, a.isPrint = true) : ∀ a ∈ g, a.isPrint = true := by
  induction ns generalizing le re log with
  | nil =>
    simp [visitSubdirs] at h
    obtain ⟨_, _, hg⟩ := h
    subst hg
    exact hlog
  | cons n ns ih =>
    simp only [visitSubdirs] at h
    split at h
    case _ lc rc hlc hrc =>
      split at h
      case _ lc2 rc2 g2 hp =>
        refine ih _ _ _ h ?_
        intro x hx
        rcases List.mem_append.mp hx with hx | hx
        · exact hlog x hx
        · exact hf _ _ _ _ _ _ _ hp x hx
      case _ => simp at h
    case _ => simp at h

theorem visit_dcmp_log (cmp : Comparer)
    (hlo : ∀ lp rp le re n le2 re2 g,
      cmp.left_only lp rp le re n = .ok (le2, re2, g) → ∀ a ∈ g, a.isPrint = true)
    (hro : ∀ lp rp le re n le2 re2 g,
      cmp.right_only lp rp le re n = .ok (le2, re2, g) → ∀ a ∈ g, a.isPrint = true)
    (hdf : ∀ lp rp le re n le2 re2 g,
      cmp.diff lp rp le re n = .ok (le2, re2, g) → ∀ a ∈ g, a.isPrint = true)
    (fuel : Nat) (lp rp : List String) (l r L R : FSNode) (g : List Action)
    (h : visit_dcmp cmp fuel lp rp l r = .ok (L, R, g)) :
    ∀ a ∈ g, a.isPrint = true := by
  induction fuel generalizing lp rp l r L R g with
  | zero => simp [visit_dcmp] at h
  | succ fuel ih =>
    match l, r with
    | .file c t, _ => simp [visit_dcmp] at h
    | .dir le, .file c t => simp [visit_dcmp] at h
    | .dir le, .dir re =>
      simp only [visit_dcmp] at h
      split at h
      case _ => simp at h
      case _ le1 re1 g1 h1 =>
        have hg1 := runHandler_log _ (hlo lp rp) _ _ _ _ _ _ _ h1 (by simp)
        split at h
        case _ => simp at h
        case _ le2 re2 g2 h2 =>
          have hg2 := runHandler_log _ (hro lp rp) _ _ _ _ _ _ _ h2 hg1
          split at h
          case _ => simp at h
          case _ le3 re3 g3 h3 =>
            have hg3 := runHandler_log _ (hdf lp rp) _ _ _ _ _ _ _ h3 hg2
            exact visitSubdirs_log _ (fun lp2 rp2 l2 r2 L2 R2 g4 hh =>
              ih lp2 rp2 l2 r2 L2 R2 g4 hh) _ _ _ _ _ _ _ _ _ h hg3

theorem runAssets_log (cmp : Comparer) (fuel : Nat) (ppath : String)
    (hvalG : ∀ op lp oa la n b oa1 la1 g,
      cmp.validate op lp oa la n = .ok (b, oa1, la1, g) → ∀ a ∈ g, a.isPrint = true)
    (hlo : ∀ lp rp le re n le2 re2 g,
      cmp.left_only lp rp le re n = .ok (le2, re2, g) → ∀ a ∈ g, a.isPrint = true)
    (hro : ∀ lp rp le re n le2 re2 g,
      cmp.right_only lp rp le re n = .ok (le2, re2, g) → ∀ a ∈ g, a.isPrint = true)
    (hdf : ∀ lp rp le re n le2 re2 g,
      cmp.diff lp rp le re n = .ok (le2, re2, g) → ∀ a ∈ g, a.isPrint = true)
    (as : List String) (w : World) (log : List Action)
    (hlog : ∀ a ∈ log, a.isPrint = true) :
    ∀ a ∈ (runAssets cmp fuel ppath as w log).2.1, a.isPrint = true := by
  induction as generalizing w log with
  | nil => exact hlog
  | cons a as ih =>
    rcases hv : cmp.validate [ppath, "Assets", a] ["Assets", a]
        (originEntries w ppath) w.localA a with e | q
    · simp only [runAssets, hv]
      exact hlog
    · obtain ⟨b, oa1, la1, g⟩ := q
      have hg := hvalG _ _ _ _ _ _ _ _ _ hv
      have hlg : ∀ x ∈ log ++ g, x.isPrint = true := by
        intro x hx
        rcases List.mem_append.mp hx with hx | hx
        · exact hlog x hx
        · exact hg x hx
      by_cases hb : b = true
      · subst hb
        rcases hlN : lookupE oa1 a with _ | lN
        · simp only [runAssets, hv, hlN]
          exact hlg
        · rcases hrN : lookupE la1 a with _ | rN
          · simp only [runAssets, hv, hlN, hrN]
            exact hlg
          · rcases hvis : visit_dcmp cmp fuel [ppath, "Assets", a] ["Assets", a] lN rN
                with e | t
            · simp only [runAssets, hv, hlN, hrN, hvis]
              exact hlg
            · obtain ⟨lN2, rN2, g2⟩ := t
              have hg2 := visit_dcmp_log cmp hlo hro hdf _ _ _ _ _ _ _ _ hvis
              simp only [runAssets, hv, hlN, hrN, hvis]
              refine ih _ _ ?_
              intro x hx
              rcases List.mem_append.mp hx with hx | hx
              · exact hlg x hx
              · exact hg2 x hx
      · simp only [Bool.not_eq_true] at hb
        subst hb
        simp only [runAssets, hv, Bool.false_eq_true, if_false]
        exact ih _ _ hlg

theorem runProjects_log (cmp : Comparer) (fuel : Nat)
    (hvalG : ∀ op lp oa la n b oa1 la1 g,
      cmp.validate op lp oa la n = .ok (b, oa1, la1, g) → ∀ a ∈ g, a.isPrint = true)
    (hlo : ∀ lp rp le re n le2 re2 g,
      cmp.left_only lp rp le re n = .ok (le2, re2, g) → ∀ a ∈ g, a.isPrint = true)
    (hro : ∀ lp rp le re n le2 re2 g,
      cmp.right_only lp rp le re n = .ok (le2, re2, g) → ∀ a ∈ g, a.isPrint = true)
    (hdf : ∀ lp rp le re n le2 re2 g,
      cmp.diff lp rp le re n = .ok (le2, re2, g) → ∀ a ∈ g, a.isPrint = true)
    (ps : List Proj) (w : World) (log : List Action)
    (hlog : ∀ a ∈ log, a.isPrint = true) :
    ∀ a ∈ (runProjects cmp fuel ps w log).2.1, a.isPrint = true := by
  induction ps generalizing w log with
  | nil => exact hlog
  | cons pr ps ih =>
    have hlg : ∀ x ∈ log ++ [Action.printWith pr.path], x.isPrint = true := by
      intro x hx
      rcases List.mem_append.mp hx with hx | hx
      · exact hlog x hx
      · simp at hx
        subst hx
        rfl
    have hra := runAssets_log cmp fuel pr.path hvalG hlo hro hdf pr.assets w
      (log ++ [Action.printWith pr.path]) hlg
    rcases hres : runAssets cmp fuel pr.path pr.assets w (log ++ [.printWith pr.path])
        with ⟨w1, log1, res⟩
    rw [hres] at hra
    cases res with
    | ok u =>
      obtain ⟨⟩ := u
      simp only [runProjects, hres]
      exact ih _ _ hra
    | error e =>
      simp only [runProjects, hres]
      exact hra

theorem diff_handlers_shape (lp rp : List String) (le re : List (String × FSNode))
    (n : String) :
    diffComparer.left_only lp rp le re n = .ok (le, re, [.printL (lp ++ [n])])
    ∧ diffComparer.right_only lp rp le re n = .ok (le, re, [.printR (rp ++ [n])])
    ∧ diffComparer.diff lp rp le re n = .ok (le, re, [.printD (rp ++ [n])]) :=
  ⟨rfl, rfl, rfl⟩

theorem diff_validate_shape (op lp : List String) (oa la : List (String × FSNode))
    (n : String) (b : Bool) (oa1 la1 : List (String × FSNode)) (g : List Action)
    (h : diffComparer.validate op lp oa la n = .ok (b, oa1, la1, g)) :
    oa1 = oa ∧ la1 = la ∧ ∀ a ∈ g, a.isPrint = true := by
  by_cases hla : isDirO (lookupE la n) = true
  · by_cases hoa : isDirO (lookupE oa n) = true
    · simp [diffComparer, hla, hoa] at h
      obtain ⟨_, h1, h2, h3⟩ := h
      subst h1 h2 h3
      exact ⟨rfl, rfl, by simp⟩
    · simp only [Bool.not_eq_true] at hoa
      simp [diffComparer, hla, hoa] at h
      obtain ⟨_, h1, h2, h3⟩ := h
      subst h1 h2 h3
      exact ⟨rfl, rfl, by intro a ha; simp at ha; subst ha; rfl⟩
  · simp only [Bool.not_eq_true] at hla
    simp [diffComparer, hla] at h
    obtain ⟨_, h1, h2, h3⟩ := h
    subst h1 h2 h3
    exact ⟨rfl, rfl, by intro a ha; simp at ha; subst ha; rfl⟩

/-- C10: a `diff` run never mutates the filesystem.  The Report policy's
handlers return the listings untouched and print exactly one classified
path each (the `diff` handler the right-hand path); its `validate`
likewise only prints; consequently the whole run leaves the local
`Assets` listing and every origin project's `Assets` listing unchanged,
and its whole log consists of report lines only — no copy or removal is
ever announced, i.e. `copy_asset`/`remove_asset` are never invoked. -/
theorem c10_diff_run_never_mutates (fuel : Nat) (df : String) (w : World) :
    ((diff_cmd fuel df w).1.localA = w.localA
      ∧ ∀ p, originEntries (diff_cmd fuel df w).1 p = originEntries w p)
    ∧ (∀ a ∈ (diff_cmd fuel df w).2.1, a.isPrint = true)
    ∧ (∀ lp rp le re n,
        diffComparer.left_only lp rp le re n = .ok (le, re, [.printL (lp ++ [n])])
        ∧ diffComparer.right_only lp rp le re n = .ok (le, re, [.printR (rp ++ [n])])
        ∧ diffComparer.diff lp rp le re n = .ok (le, re, [.printD (rp ++ [n])])) := by
  have hval : ∀ op lp oa la n b oa1 la1 g,
      diffComparer.validate op lp oa la n = .ok (b, oa1, la1, g) →
        oa1 = oa ∧ la1 = la :=
    fun op lp oa la n b oa1 la1 g h =>
      ⟨(diff_validate_shape op lp oa la n b oa1 la1 g h).1,
        (diff_validate_shape op lp oa la n b oa1 la1 g h).2.1⟩
  have hvalG : ∀ op lp oa la n b oa1 la1 g,
      diffComparer.validate op lp oa la n = .ok (b, oa1, la1, g) →
        ∀ a ∈ g, a.isPrint = true :=
    fun op lp oa la n b oa1 la1 g h =>
      (diff_validate_shape op lp oa la n b oa1 la1 g h).2.2
  have hlo : ∀ lp rp le re n le2 re2 g,
      diffComparer.left_only lp rp le re n = .ok (le2, re2, g) →
        le2 = le ∧ re2 = re := by
    intro lp rp le re n le2 re2 g h
    rw [(diff_handlers_shape lp rp le re n).1] at h
    simp at h
    exact ⟨h.1.symm, h.2.1.symm⟩
  have hro : ∀ lp rp le re n le2 re2 g,
      diffComparer.right_only lp rp le re n = .ok (le2, re2, g) →
        le2 = le ∧ re2 = re := by
    intro lp rp le re n le2 re2 g h
    rw [(diff_handlers_shape lp rp le re n).2.1] at h
    simp at h
    exact ⟨h.1.symm, h.2.1.symm⟩
  have hdf : ∀ lp rp le re n le2 re2 g,
      diffComparer.diff lp rp le re n = .ok (le2, re2, g) →
        le2 = le ∧ re2 = re := by
    intro lp rp le re n le2 re2 g h
    rw [(diff_handlers_shape lp rp le re n).2.2] at h
    simp at h
    exact ⟨h.1.symm, h.2.1.symm⟩
  have hloG : ∀ lp rp le re n le2 re2 g,
      diffComparer.left_only lp rp le re n = .ok (le2, re2, g) →
        ∀ a ∈ g, a.isPrint = true := by
    intro lp rp le re n le2 re2 g h
    rw [(diff_handlers_shape lp rp le re n).1] at h
    simp at h
    obtain ⟨_, _, hg⟩ := h
    subst hg
    intro a ha
    simp at ha
    subst ha
    rfl
  have hroG : ∀ lp rp le re n le2 re2 g,
      diffComparer.right_only lp rp le re n = .ok (le2, re2, g) →
        ∀ a ∈ g, a.isPrint = true := by
    intro lp rp le re n le2 re2 g h
    rw [(diff_handlers_shape lp rp le re n).2.1] at h
    simp at h
    obtain ⟨_, _, hg⟩ := h
    subst hg
    intro a ha
    simp at ha
    subst ha
    rfl
  have hdfG : ∀ lp rp le re n le2 re2 g,
      diffComparer.diff lp rp le re n = .ok (le2, re2, g) →
        ∀ a ∈ g, a.isPrint = true := by
    intro lp rp le re n le2 re2 g h
    rw [(diff_handlers_shape lp rp le re n).2.2] at h
    simp at h
    obtain ⟨_, _, hg⟩ := h
    subst hg
    intro a ha
    simp at ha
    subst ha
    rfl
  refine ⟨?_, ?_, diff_handlers_shape⟩
  · simp only [diff_cmd, compare_projects]
    rcases hl : load_conf df w with _ | conf
    · exact ⟨rfl, fun p => rfl⟩
    · exact runProjects_preserves_obs _ fuel hval hlo hro hdf conf.projects w []
  · simp only [diff_cmd, compare_projects]
    rcases hl : load_conf df w with _ | conf
    · simp
    · exact runProjects_log _ fuel hvalG hloG hroG hdfG conf.projects w [] (by simp)

/-- C10 witness: a concrete diff run over a manifest with one project and
one asset pair; the run's log consists of report lines only. -/
theorem c10_diff_run_never_mutates_witness :
    (Action.printWith "p").isPrint = true :=
  (c10_diff_run_never_mutates 2 "depend.json"
      ⟨[["depend.json"]], ⟨[⟨"p", ["A"]⟩]⟩, [("p", [("A", .dir [])])],
        [("A", .dir [])], none⟩).2.1
    (Action.printWith "p") (by decide)

theorem mem_keysOf_of_lookup {α : Type} (es : List (String × α)) (n : String) (v : α)
    (h : lookupE es n = some v) : n ∈ keysOf es := by
  by_contra hmem
  rw [(lookupE_eq_none_iff es n).mpr hmem] at h
  exact Option.noConfusion h

theorem lookupPath_file_cons (c : List Nat) (t : Nat) (x : String) (p : List String) :
    lookupPath (.file c t) (x :: p) = none := rfl

theorem lookupPath_dir_cons (es : List (String × FSNode)) (x : String) (p : List String) :
    lookupPath (.dir es) (x :: p) =
      match lookupE es x with
      | some ch => lookupPath ch p
      | none => none := rfl

theorem push_remove_loop (lp rp : List String) (ns : List String)
    (le re : List (String × FSNode)) (log : List Action)
    (hsub : ∀ n ∈ ns, ∃ v, lookupE le n = some v) (hnodup : ns.Nodup) :
    ∃ le1 g1,
      runHandler ((pushComparer true false none).left_only lp rp) ns le re log
        = .ok (le1, re, g1)
      ∧ ∀ m, lookupE le1 m = if m ∈ ns then none else lookupE le m := by
  induction ns generalizing le log with
  | nil => exact ⟨le, log, rfl, by simp⟩
  | cons n ns ih =>
    obtain ⟨v, hv⟩ := hsub n (by simp)
    have hhandler : (pushComparer true false none).left_only lp rp le re n
        = .ok (removeEntry le n, re, [.removeAnnounce (lp ++ [n])]) := by
      simp [pushComparer, remove_asset, hv]
    have hsub2 : ∀ m ∈ ns, ∃ v2, lookupE (removeEntry le n) m = some v2 := by
      intro m hm
      obtain ⟨v2, hv2⟩ := hsub m (by simp [hm])
      refine ⟨v2, ?_⟩
      rw [lookupE_removeEntry]
      rw [if_neg (by rintro rfl; exact (List.nodup_cons.mp hnodup).1 hm)]
      exact hv2
    obtain ⟨le1, g1, hrun, hform⟩ :=
      ih (removeEntry le n) (log ++ [.removeAnnounce (lp ++ [n])]) hsub2
        (List.nodup_cons.mp hnodup).2
    refine ⟨le1, g1, ?_, ?_⟩
    · simp only [runHandler, hhandler]
      exact hrun
    · intro m
      rw [hform m]
      by_cases hmn : m = n
      · subst hmn
        simp [lookupE_removeEntry]
      · by_cases hm : m ∈ ns
        · simp [hm]
        · simp only [List.mem_cons, hm, hmn, or_self, if_false]
          rw [lookupE_removeEntry]
          rw [if_neg hmn]

theorem push_copy_loop (lp rp : List String) (ns : List String)
    (le re : List (String × FSNode)) (log : List Action)
    (hcond : ∀ n ∈ ns,
      (∃ v, lookupE re n = some v ∧ lookupE le n = none) ∨
      (∃ c t c2 t2, lookupE re n = some (.file c t) ∧ lookupE le n = some (.file c2 t2)))
    (hnodup : ns.Nodup)
    (h : List (String × FSNode) → List (String × FSNode) → String →
      Except Err (List (String × FSNode) × List (String × FSNode) × List Action))
    (hh : ∀ le0 re0 n, h le0 re0 n =
      match copy_asset false none (rp ++ [n]) (lp ++ [n]) re0 le0 n with
      | .ok (le2, g) => .ok (le2, re0, g)
      | .error e => .error e) :
    ∃ le2 g2,
      runHandler h ns le re log = .ok (le2, re, g2)
      ∧ ∀ m, lookupE le2 m = if m ∈ ns then lookupE re m else lookupE le m := by
  induction ns generalizing le log with
  | nil => exact ⟨le, log, rfl, by simp⟩
  | cons n ns ih =>
    have hstep : ∃ v, lookupE re n = some v ∧
        copy_asset false none (rp ++ [n]) (lp ++ [n]) re le n
          = .ok (setEntry le n v, [.copyAnnounce (rp ++ [n]) (lp ++ [n])]) := by
      rcases hcond n (by simp) with ⟨v, hv, hd⟩ | ⟨c, t, c2, t2, hv, hd⟩
      · refine ⟨v, hv, ?_⟩
        cases v with
        | file c t => simp [copy_asset, hv, hd, metaSlip]
        | dir es => simp [copy_asset, hv, hd, metaSlip]
      · refine ⟨.file c t, hv, ?_⟩
        simp [copy_asset, hv, hd, metaSlip]
    obtain ⟨v, hv, hcopy⟩ := hstep
    have hhandler : h le re n
        = .ok (setEntry le n v, re, [.copyAnnounce (rp ++ [n]) (lp ++ [n])]) := by
      rw [hh, hcopy]
    have hcond2 : ∀ m ∈ ns,
        (∃ v2, lookupE re m = some v2 ∧ lookupE (setEntry le n v) m = none) ∨
        (∃ c t c2 t2, lookupE re m = some (.file c t) ∧
          lookupE (setEntry le n v) m = some (.file c2 t2)) := by
      intro m hm
      have hmn : m ≠ n := by rintro rfl; exact (List.nodup_cons.mp hnodup).1 hm
      rw_mod_cast [show (lookupE (setEntry le n v) m = lookupE le m) from
        lookupE_setEntry_ne le n v m hmn]
      exact hcond m (by simp [hm])
    obtain ⟨le2, g2, hrun, hform⟩ :=
      ih (setEntry le n v) (log ++ [.copyAnnounce (rp ++ [n]) (lp ++ [n])]) hcond2
        (List.nodup_cons.mp hnodup).2
    refine ⟨le2, g2, ?_, ?_⟩
    · simp only [runHandler, hhandler]
      exact hrun
    · intro m
      rw [hform m]
      by_cases hmn : m = n
      · subst hmn
        have : m ∉ ns := (List.nodup_cons.mp hnodup).1
        simp [this, lookupE_setEntry_eq, hv]
      · by_cases hm : m ∈ ns
        · simp [hm]
        · simp only [List.mem_cons, hm, hmn, or_self, if_false]
          exact lookupE_setEntry_ne le n v m hmn

theorem push_subs_loop (P : List (String × FSNode) → List (String × FSNode) → Prop)
    (f : List String → List String → FSNode → FSNode →
      Except Err (FSNode × FSNode × List Action))
    (hf : ∀ lp2 rp2 ce cre, P ce cre →
      ∃ ce2 g, f lp2 rp2 (.dir ce) (.dir cre) = .ok (.dir ce2, .dir cre, g)
        ∧ RemovedSpec ce cre ce2)
    (lp rp : List String) (ns : List String)
    (le re : List (String × FSNode)) (log : List Action)
    (hns : ∀ n ∈ ns, ∃ ce cre, lookupE le n = some (.dir ce)
      ∧ lookupE re n = some (.dir cre) ∧ P ce cre)
    (hnodup : ns.Nodup) :
    ∃ le4 g4, visitSubdirs f lp rp ns le re log = .ok (.dir le4, .dir re, g4)
      ∧ (∀ m, m ∉ ns → lookupE le4 m = lookupE le m)
      ∧ (∀ m ∈ ns, ∃ ce cre ce2, lookupE le m = some (.dir ce)
          ∧ lookupE re m = some (.dir cre)
          ∧ lookupE le4 m = some (.dir ce2) ∧ RemovedSpec ce cre ce2) := by
  induction ns generalizing le log with
  | nil => exact ⟨le, log, rfl, fun m _ => rfl, by simp⟩
  | cons n ns ih =>
    obtain ⟨ce, cre, hce, hcre, hP⟩ := hns n (by simp)
    obtain ⟨ce2, g, hvis, hRem⟩ := hf (lp ++ [n]) (rp ++ [n]) ce cre hP
    have hns2 : ∀ m ∈ ns, ∃ ce3 cre3, lookupE (setEntry le n (.dir ce2)) m
        = some (.dir ce3) ∧ lookupE re m = some (.dir cre3) ∧ P ce3 cre3 := by
      intro m hm
      have hmn : m ≠ n := by rintro rfl; exact (List.nodup_cons.mp hnodup).1 hm
      rw [lookupE_setEntry_ne le n (.dir ce2) m hmn]
      exact hns m (by simp [hm])
    obtain ⟨le4, g4, hrun, hout, hin⟩ :=
      ih (setEntry le n (.dir ce2)) (log ++ g) hns2 (List.nodup_cons.mp hnodup).2
    refine ⟨le4, g4, ?_, ?_, ?_⟩
    · simp only [visitSubdirs, hce, hcre, hvis]
      rw [setEntry_lookup_self re n (.dir cre) hcre]
      exact hrun
    · intro m hm
      have hmn : m ≠ n := by intro hh; exact hm (by simp [hh])
      have hm2 : m ∉ ns := by intro hh; exact hm (by simp [hh])
      rw [hout m hm2]
      exact lookupE_setEntry_ne le n (.dir ce2) m hmn
    · intro m hm
      rcases List.mem_cons.mp hm with heq | hmem
      · subst heq
        have hm2 : m ∉ ns := (List.nodup_cons.mp hnodup).1
        refine ⟨ce, cre, ce2, hce, hcre, ?_, hRem⟩
        rw [hout m hm2]
        exact lookupE_setEntry_eq le m (.dir ce2)
      · have hmn : m ≠ n := by rintro rfl; exact (List.nodup_cons.mp hnodup).1 hmem
        obtain ⟨ce3, cre3, ce4, h1, h2, h3, h4⟩ := hin m hmem
        rw [lookupE_setEntry_ne le n (.dir ce2) m hmn] at h1
        exact ⟨ce3, cre3, ce4, h1, h2, h3, h4⟩

theorem isDirO_exists (o : Option FSNode) (h : isDirO o = true) :
    ∃ es, o = some (.dir es) := by
  cases o with
  | none => simp [isDirO] at h
  | some v =>
    cases v with
    | file c t => simp [isDirO] at h
    | dir es => exact ⟨es, rfl⟩

theorem isFileO_exists (o : Option FSNode) (h : isFileO o = true) :
    ∃ c t, o = some (.file c t) := by
  cases o with
  | none => simp [isFileO] at h
  | some v =>
    cases v with
    | file c t => exact ⟨c, t, rfl⟩
    | dir es => simp [isFileO] at h

/-- C7 amended: after a push walk with clean set, preview off, and no
`.meta` file in the working directory, over well-formed trees and with
fuel covering the local tree's height, the walk completes, the local tree
is returned unchanged, and every origin-side name that is origin-only at
a level reached through entries that are directories on both sides (and
outside `filecmp`'s default ignore list) is gone from the origin tree.
Entries under a type-mismatched name (`common_funny`) are not visited and
therefore not removed, which is what the counterexample exhibits. -/
theorem c7_amended_push_clean_removes (fuel : Nat) (le re : List (String × FSNode))
    (lp rp : List String)
    (hwl : wfF (.dir le) = true) (hwr : wfF (.dir re) = true)
    (hfuel : heightF (.dir re) ≤ fuel) :
    ∃ le2 g, visit_dcmp (pushComparer true false none) fuel lp rp (.dir le) (.dir re)
        = .ok (.dir le2, .dir re, g)
      ∧ RemovedSpec le re le2 := by
  induction fuel generalizing le re lp rp with
  | zero =>
    exfalso
    have h1 : 1 ≤ heightF (.dir re) := by
      cases re with
      | nil => simp [heightF]
      | cons e es =>
        obtain ⟨m, v⟩ := e
        simp only [heightF]
        omega
    omega
  | succ fuel ih =>
    have hknl : (keysOf le).Nodup := wfF_dir_nodup le hwl
    have hknr : (keysOf re).Nodup := wfF_dir_nodup re hwr
    have hlnn : (listNames le).Nodup := listNames_nodup le hknl
    have hrnn : (listNames re).Nodup := listNames_nodup re hknr
    have hmem_lo : ∀ m : String,
        m ∈ List.filter (fun n => !(listNames re).contains n) (listNames le) ↔
          m ∈ listNames le ∧ m ∉ listNames re := by
      intro m
      simp [List.mem_filter]
    have hmem_ro : ∀ m : String,
        m ∈ List.filter (fun n => !(listNames le).contains n) (listNames re) ↔
          m ∈ listNames re ∧ m ∉ listNames le := by
      intro m
      simp [List.mem_filter]
    have hmem_common : ∀ m : String,
        m ∈ List.filter (fun n => (listNames re).contains n) (listNames le) ↔
          m ∈ listNames le ∧ m ∈ listNames re := by
      intro m
      simp [List.mem_filter]
    -- loop 1: remove the origin-only names (clean is set)
    have hsubA : ∀ n ∈ List.filter (fun n => !(listNames re).contains n) (listNames le),
        ∃ v, lookupE le n = some v := by
      intro n hn
      exact lookupE_isSome_of_mem_keys le n (((mem_listNames le n).mp
        ((hmem_lo n).mp hn).1).1)
    obtain ⟨le1, g1, hrunA, hformA⟩ := push_remove_loop lp rp
      (List.filter (fun n => !(listNames re).contains n) (listNames le)) le re []
      hsubA (hlnn.filter _)
    -- loop 2: copy the local-only names into the origin side
    have hcondB : ∀ n ∈ List.filter (fun n => !(listNames le).contains n) (listNames re),
        (∃ v, lookupE re n = some v ∧ lookupE le1 n = none) ∨
        (∃ c t c2 t2, lookupE re n = some (.file c t) ∧
          lookupE le1 n = some (.file c2 t2)) := by
      intro n hn
      obtain ⟨hnr, hnl⟩ := (hmem_ro n).mp hn
      obtain ⟨v, hv⟩ := lookupE_isSome_of_mem_keys re n ((mem_listNames re n).mp hnr).1
      refine Or.inl ⟨v, hv, ?_⟩
      rw [hformA n, if_neg (fun hmem => absurd ((hmem_lo n).mp hmem).1 hnl)]
      rw [lookupE_eq_none_iff]
      intro hk
      exact hnl ((mem_listNames le n).mpr ⟨hk, ((mem_listNames re n).mp hnr).2⟩)
    obtain ⟨le2, g2, hrunB, hformB⟩ := push_copy_loop lp rp
      (List.filter (fun n => !(listNames le).contains n) (listNames re)) le1 re g1
      hcondB (hrnn.filter _)
      ((pushComparer true false none).right_only lp rp) (fun le0 re0 n => rfl)
    have hnotlo : ∀ m : String,
        m ∈ List.filter (fun n => (listNames re).contains n) (listNames le) →
        m ∉ List.filter (fun n => !(listNames re).contains n) (listNames le) := by
      intro m hm hmem
      exact ((hmem_lo m).mp hmem).2 ((hmem_common m).mp hm).2
    have hnotro : ∀ m : String,
        m ∈ List.filter (fun n => (listNames re).contains n) (listNames le) →
        m ∉ List.filter (fun n => !(listNames le).contains n) (listNames re) := by
      intro m hm hmem
      exact ((hmem_ro m).mp hmem).2 ((hmem_common m).mp hm).1
    have hle2eq : ∀ m ∈ List.filter (fun n => (listNames re).contains n) (listNames le),
        lookupE le2 m = lookupE le m := by
      intro m hm
      rw [hformB m, if_neg (hnotro m hm), hformA m, if_neg (hnotlo m hm)]
    have hcondC : ∀ n ∈ List.filter (fun n => fileDiff (lookupE le2 n) (lookupE re n))
        (List.filter (fun n => isFileO (lookupE le n) && isFileO (lookupE re n))
          (List.filter (fun n => (listNames re).contains n) (listNames le))),
        (∃ v, lookupE re n = some v ∧ lookupE le2 n = none) ∨
        (∃ c t c2 t2, lookupE re n = some (.file c t) ∧
          lookupE le2 n = some (.file c2 t2)) := by
      intro n hn
      have hncf := (List.mem_filter.mp hn).1
      have hcm := (List.mem_filter.mp hncf).1
      have hfiles := (List.mem_filter.mp hncf).2
      simp only [Bool.and_eq_true] at hfiles
      obtain ⟨c, t, hre⟩ := isFileO_exists _ hfiles.2
      obtain ⟨c2, t2, hle⟩ := isFileO_exists _ hfiles.1
      refine Or.inr ⟨c, t, c2, t2, hre, ?_⟩
      rw [hle2eq n hcm]
      exact hle
    obtain ⟨le3, g3, hrunC, hformC⟩ := push_copy_loop lp rp
      (List.filter (fun n => fileDiff (lookupE le2 n) (lookupE re n))
        (List.filter (fun n => isFileO (lookupE le n) && isFileO (lookupE re n))
          (List.filter (fun n => (listNames re).contains n) (listNames le))))
      le2 re g2 hcondC (((hlnn.filter _).filter _).filter _)
      ((pushComparer true false none).diff lp rp) (fun le0 re0 n => rfl)
    have hnotdiff : ∀ m : String,
        m ∈ List.filter (fun n => isDirO (lookupE le n) && isDirO (lookupE re n))
          (List.filter (fun n => (listNames re).contains n) (listNames le)) →
        m ∉ List.filter (fun n => fileDiff (lookupE le2 n) (lookupE re n))
          (List.filter (fun n => isFileO (lookupE le n) && isFileO (lookupE re n))
            (List.filter (fun n => (listNames re).contains n) (listNames le))) := by
      intro m hm hmem
      have hdirs := (List.mem_filter.mp hm).2
      simp only [Bool.and_eq_true] at hdirs
      have hfs := (List.mem_filter.mp ((List.mem_filter.mp hmem).1)).2
      simp only [Bool.and_eq_true] at hfs
      exact isDirO_isFileO_exclusive (lookupE le m) ⟨hdirs.1, hfs.1⟩
    have hle3eq : ∀ m ∈ List.filter (fun n => (listNames re).contains n) (listNames le),
        m ∉ List.filter (fun n => fileDiff (lookupE le2 n) (lookupE re n))
          (List.filter (fun n => isFileO (lookupE le n) && isFileO (lookupE re n))
            (List.filter (fun n => (listNames re).contains n) (listNames le))) →
        lookupE le3 m = lookupE le m := by
      intro m hm hnd
      rw [hformC m, if_neg hnd]
      exact hle2eq m hm
    have hnsD : ∀ n ∈ List.filter (fun n => isDirO (lookupE le n) && isDirO (lookupE re n))
        (List.filter (fun n => (listNames re).contains n) (listNames le)),
        ∃ ce cre, lookupE le3 n = some (.dir ce) ∧ lookupE re n = some (.dir cre)
          ∧ (wfF (.dir ce) = true ∧ wfF (.dir cre) = true
            ∧ heightF (.dir cre) ≤ fuel) := by
      intro n hn
      have hcm := (List.mem_filter.mp hn).1
      have hdirs := (List.mem_filter.mp hn).2
      simp only [Bool.and_eq_true] at hdirs
      obtain ⟨ce, hce⟩ := isDirO_exists _ hdirs.1
      obtain ⟨cre, hcre⟩ := isDirO_exists _ hdirs.2
      refine ⟨ce, cre, ?_, hcre, wfF_child le n _ hwl hce, wfF_child re n _ hwr hcre, ?_⟩
      · rw [hle3eq n hcm (hnotdiff n hn)]
        exact hce
      · have := heightF_child re n (.dir cre) hcre
        omega
    obtain ⟨le4, g4, hrunD, houtD, hinD⟩ := push_subs_loop
      (fun ce cre => wfF (.dir ce) = true ∧ wfF (.dir cre) = true
        ∧ heightF (.dir cre) ≤ fuel)
      (visit_dcmp (pushComparer true false none) fuel)
      (fun lp2 rp2 ce cre hp => ih ce cre lp2 rp2 hp.1 hp.2.1 hp.2.2)
      lp rp
      (List.filter (fun n => isDirO (lookupE le n) && isDirO (lookupE re n))
        (List.filter (fun n => (listNames re).contains n) (listNames le)))
      le3 re g3 hnsD ((hlnn.filter _).filter _)
    have hnotcd : ∀ m : String, m ∉ listNames re →
        m ∉ List.filter (fun n => isDirO (lookupE le n) && isDirO (lookupE re n))
          (List.filter (fun n => (listNames re).contains n) (listNames le)) := by
      intro m hmr hmem
      exact hmr ((hmem_common m).mp (List.mem_filter.mp hmem).1).2
    refine ⟨le4, g4, ?_, ?_⟩
    · simp only [visit_dcmp, hrunA, hrunB, hrunC]
      exact hrunD
    · intro p n pe qe hple hpre hcomp hign hkpe hkqe
      cases p with
      | nil =>
        simp only [lookupPath, Option.some.injEq, FSNode.dir.injEq] at hple hpre
        subst hple hpre
        have hnr : n ∉ listNames re := by
          intro hmem
          exact hkqe ((mem_listNames re n).mp hmem).1
        have hnlo : n ∈ List.filter (fun m => !(listNames re).contains m) (listNames le) :=
          (hmem_lo n).mpr ⟨(mem_listNames le n).mpr ⟨hkpe, hign⟩, hnr⟩
        have hd1 : n ∉ List.filter (fun m => fileDiff (lookupE le2 m) (lookupE re m))
            (List.filter (fun m => isFileO (lookupE le m) && isFileO (lookupE re m))
              (List.filter (fun m => (listNames re).contains m) (listNames le))) := by
          intro hmem
          exact hnr ((hmem_common n).mp
            (List.mem_filter.mp (List.mem_filter.mp hmem).1).1).2
        have hd2 : n ∉ List.filter (fun m => !(listNames le).contains m) (listNames re) := by
          intro hmem
          exact hnr ((hmem_ro n).mp hmem).1
        have hnone : lookupE le4 n = none := by
          rw [houtD n (hnotcd n hnr), hformC n, if_neg hd1, hformB n, if_neg hd2,
            hformA n, if_pos hnlo]
        simp [lookupPath, hnone]
      | cons c p2 =>
        rw [lookupPath_dir_cons] at hple hpre
        rcases hlc : lookupE le c with _ | lc
        · rw [hlc] at hple
          simp at hple
        · rcases hrc : lookupE re c with _ | rc
          · rw [hrc] at hpre
            simp at hpre
          · rw [hlc] at hple
            rw [hrc] at hpre
            simp only [] at hple hpre
            cases lc with
            | file c0 t0 =>
              cases p2 with
              | nil => simp [lookupPath] at hple
              | cons x xs => simp [lookupPath] at hple
            | dir lce =>
              cases rc with
              | file c1 t1 =>
                cases p2 with
                | nil => simp [lookupPath] at hpre
                | cons x xs => simp [lookupPath] at hpre
              | dir rce =>
                have hcign : ¬(DEFAULT_IGNORES.contains c = true) := hcomp c (by simp)
                have hcln : c ∈ listNames le :=
                  (mem_listNames le c).mpr ⟨mem_keysOf_of_lookup le c _ hlc, hcign⟩
                have hcrn : c ∈ listNames re :=
                  (mem_listNames re c).mpr ⟨mem_keysOf_of_lookup re c _ hrc, hcign⟩
                have hccm : c ∈ List.filter (fun m => (listNames re).contains m)
                    (listNames le) := (hmem_common c).mpr ⟨hcln, hcrn⟩
                have hccd : c ∈ List.filter
                    (fun m => isDirO (lookupE le m) && isDirO (lookupE re m))
                    (List.filter (fun m => (listNames re).contains m) (listNames le)) := by
                  refine List.mem_filter.mpr ⟨hccm, ?_⟩
                  rw [hlc, hrc]
                  rfl
                obtain ⟨ce, cre, ce2, h1, h2, h3, hRem⟩ := hinD c hccd
                rw [hle3eq c hccm (hnotdiff c hccd), hlc] at h1
                rw [hrc] at h2
                simp only [Option.some.injEq, FSNode.dir.injEq] at h1 h2
                rw [← h1, ← h2] at hRem
                have hres := hRem p2 n pe qe hple hpre
                  (fun x hx => hcomp x (by simp [hx])) hign hkpe hkqe
                have hsplit : (c :: p2) ++ [n] = c :: (p2 ++ [n]) := rfl
                rw [hsplit, lookupPath_dir_cons]
                simp only [h3]
                exact hres


/-- C7 counterexample: push with clean set and preview off, over an
origin whose `x` is a directory containing `y` while local `x` is a
regular file.  `x` lands in `common_funny`, the walk dispatches nothing
and removes nothing, so the origin entry `x/y` — which has no local
counterpart — survives the run, refuting `every entry on the origin side
that had no counterpart on the local side has been removed ...
recursively`. -/
theorem c7_counterexample_funny_entry_survives :
    visit_dcmp (pushComparer true false none) 3 ["o"] ["l"]
        (.dir [("x", .dir [("y", .file [] 0)])]) (.dir [("x", .file [] 0)])
      = .ok (.dir [("x", .dir [("y", .file [] 0)])], .dir [("x", .file [] 0)], [])
    ∧ lookupPath (.dir [("x", .dir [("y", .file [] 0)])]) ["x", "y"]
      = some (.file [] 0)
    ∧ lookupPath (.dir [("x", .file [] 0)]) ["x", "y"] = none :=
  ⟨rfl, rfl, rfl⟩

/-- C7 amended witness: a concrete clean push removes the origin-only
entry `gone`. -/
theorem c7_amended_push_clean_removes_witness :
    ∃ le2 g, visit_dcmp (pushComparer true false none) 1 ["o"] ["l"]
        (.dir [("gone", .file [] 0), ("keep", .file [5] 0)])
        (.dir [("keep", .file [5] 0)])
      = .ok (.dir le2, .dir [("keep", .file [5] 0)], g)
      ∧ lookupPath (.dir le2) ["gone"] = none := by
  obtain ⟨le2, g, hv, hrem⟩ := c7_amended_push_clean_removes 1
    [("gone", .file [] 0), ("keep", .file [5] 0)] [("keep", .file [5] 0)]
    ["o"] ["l"] (by simp [wfF]) (by simp [wfF]) (by simp [heightF])
  refine ⟨le2, g, hv, ?_⟩
  have hres := hrem [] "gone" [("gone", .file [] 0), ("keep", .file [5] 0)]
    [("keep", .file [5] 0)] rfl rfl (by simp) (by decide) (by decide) (by decide)
  simpa using hres

end USync
